import Mathlib

/-
Verification of the TinaKit release-packaging script (scripts/create_release.py).

The script is shallowly embedded: the filesystem is a rose tree of named
entries, every stage of the pipeline is a Lean function from filesystem to
filesystem that also emits a trace of I/O events, and OS-level I/O failures
(exceptions raised by shutil / open) are injected through an explicit
environment.  Library calls (fnmatch, hashlib, zipfile) are modelled by
executable Lean functions that preserve the interface and output shape the
script relies on; each such model carries a doc comment saying what it
abstracts.
-/

namespace CreateRelease

/-- Model of `fnmatch.fnmatch` restricted to the glob features the script's
patterns use: literal characters, `*` (any run of characters) and `?`
(any single character).  Case-sensitive, as on POSIX.  Each recursive call
shrinks `|pattern| + |string|` by at least one, so running it on fuel
`|pattern| + |string|` makes the fuel-exhausted branch unreachable while
keeping the recursion structural (hence kernel-computable). -/
def globGo : Nat → List Char → List Char → Bool
  | _, [], [] => true
  | _, [], _ :: _ => false
  | 0, _ :: _, _ => false
  | f + 1, p :: ps, [] => (p == '*') && globGo f ps []
  | f + 1, p :: ps, c :: cs =>
    if p == '*' then globGo f ps (c :: cs) || globGo f (p :: ps) cs
    else if p == '?' then globGo f ps cs
    else (p == c) && globGo f ps cs

/-- Glob match of a pattern against a string. -/
def globMatch (ps cs : List Char) : Bool :=
  globGo (ps.length + cs.length) ps cs

/-- `fnmatch` on strings. -/
def fnmatch (name pattern : String) : Bool :=
  globMatch pattern.data name.data

/-- The exclude patterns passed to `shutil.ignore_patterns` in the copytree
call of `create_release_package`. -/
def ignore_patterns : List String :=
  ["*.obj", "*.exe", "*.dll", "*.lib", "*.pdb",
   "__pycache__", "*.pyc", ".git*", "build*", "cmake-build-*"]

/-- True when `name` matches at least one exclude pattern: such entries are
omitted by `shutil.copytree`. -/
def matchesAny (name : String) : Bool :=
  ignore_patterns.any (fun p => fnmatch name p)

/-- `source_dirs` from the script: the allow-listed directories. -/
def source_dirs : List String :=
  ["include", "src", "examples", "tests", "docs", "third_party"]

/-- `important_files` from the script: the allow-listed standalone files. -/
def important_files : List String :=
  ["README.md", "CHANGELOG.md", "CMakeLists.txt", "LICENSE", ".gitignore"]

/-- A filesystem entry: a regular file with byte content, or a directory
with a list of child entries.  Names are path components. -/
inductive Entry where
  | file (name : String) (content : List Nat)
  | dir (name : String) (children : List Entry)
  deriving Repr

/-- The name (last path component) of an entry. -/
def Entry.name : Entry → String
  | .file n _ => n
  | .dir n _ => n

/-- Directory listing lookup: the first entry called `n`.  Real directory
listings have pairwise distinct names, so first-match is exact there. -/
def findEntry (es : List Entry) (n : String) : Option Entry :=
  es.find? (fun e => e.name == n)

/-- Writing into a directory: replace the entry of the same name if present,
otherwise append. -/
def upsert : List Entry → Entry → List Entry
  | [], e => [e]
  | x :: xs, e => if x.name == e.name then e :: xs else x :: upsert xs e

/-- Deleting a child (model of `shutil.rmtree` on a directory entry). -/
def removeName (es : List Entry) (n : String) : List Entry :=
  es.filter (fun e => e.name != n)

/-- The children of a subdirectory called `n`, when present. -/
def getDirChildren (es : List Entry) (n : String) : Option (List Entry) :=
  match findEntry es n with
  | some (.dir _ cs) => some cs
  | _ => none

/-- The content of a regular file called `n`, when present. -/
def getFileContent (es : List Entry) (n : String) : Option (List Nat) :=
  match findEntry es n with
  | some (.file _ c) => some c
  | _ => none

/-- True when the entry called `n` exists and is a regular file. -/
def isFileEntry (es : List Entry) (n : String) : Bool :=
  match findEntry es n with
  | some (.file _ _) => true
  | _ => false

mutual

/-- The filter `shutil.copytree` applies with `ignore_patterns`: at every
level of the copied tree an entry whose name matches an exclude pattern is
dropped (for a directory, with its whole subtree). -/
def filterTree : Entry → Option Entry
  | .file n c => if matchesAny n then none else some (.file n c)
  | .dir n cs => if matchesAny n then none else some (.dir n (filterTrees cs))

/-- `filterTree` over a directory listing. -/
def filterTrees : List Entry → List Entry
  | [] => []
  | e :: es =>
    match filterTree e with
    | some e2 => e2 :: filterTrees es
    | none => filterTrees es

end

mutual

/-- All regular files below a directory listing, as (relative path
components, content) pairs — the files `os.walk` yields.  `os.walk`'s
on-disk visiting order is OS-dependent; the model uses listing order. -/
def walkFiles : List Entry → List (List String × List Nat)
  | [] => []
  | e :: es => walkEntryFiles e ++ walkFiles es

/-- The files contributed by one entry. -/
def walkEntryFiles : Entry → List (List String × List Nat)
  | .file n c => [([n], c)]
  | .dir n cs => (walkFiles cs).map (fun pc => (n :: pc.1, pc.2))

end

mutual

/-- Real directory listings have pairwise distinct names at every level;
this is the well-formedness a tree read from disk satisfies. -/
def nodupTree : List Entry → Bool
  | [] => true
  | e :: es => !(es.any (fun x => x.name == e.name)) && nodupEntry e && nodupTree es

/-- `nodupTree` below one entry. -/
def nodupEntry : Entry → Bool
  | .file _ _ => true
  | .dir _ cs => nodupTree cs

end

/-- Text written by the script becomes file bytes (UTF codepoints suffice
for the model: no multi-byte fidelity is needed by any property). -/
def encodeStr (s : String) : List Nat :=
  s.data.map Char.toNat

/-- File bytes back to text (inverse of `encodeStr` on the texts the
script writes). -/
def decodeStr (bs : List Nat) : String :=
  String.mk (bs.map Char.ofNat)

/-- Split a character list at every newline.  Always returns at least one
(possibly empty) piece, like splitting text into lines. -/
def splitNl : List Char → List (List Char)
  | [] => [[]]
  | c :: cs =>
    match splitNl cs with
    | [] => []
    | l :: ls => if c == '\n' then [] :: l :: ls else (c :: l) :: ls

/-- The lines of a text, in order; a trailing newline contributes a final
empty piece (the behavior of splitting on the separator). -/
def linesOf (s : String) : List String :=
  (splitNl s.data).map String.mk

/-- A lowercase hexadecimal digit. -/
def hexDigitChar (n : Nat) : Char :=
  if n < 10 then Char.ofNat (48 + n) else Char.ofNat (87 + n)

/-- `w` lowercase hex digits of `n` (most significant first, truncated to
`w` digits) — the shape of `hashlib`'s `hexdigest()` output. -/
def toHexPad : Nat → Nat → List Char
  | 0, _ => []
  | w + 1, n => toHexPad w (n / 16) ++ [hexDigitChar (n % 16)]

/-- One byte absorbed into a digest state.  Models `hashlib`'s digest
update abstractly: the real compression functions are outside the script;
what the script relies on is a deterministic accumulator over the byte
stream. -/
def hashStep (st b : Nat) : Nat :=
  (st * 257 + b + 1) % (2 ^ 256)

/-- `hashlib.new(algorithm)`: a fresh digest state.  Distinct seeds keep
the two algorithms distinct in the model. -/
def hashInit (alg : String) : Nat :=
  if alg == "md5" then 1 else 0

/-- `hash_obj.update(chunk)`: absorb one chunk into the digest state. -/
def hashUpdate (st : Nat) (chunk : List Nat) : Nat :=
  chunk.foldl hashStep st

/-- The hex-digest length `hashlib` documents: 32 characters for md5,
64 for sha256. -/
def hexLen (alg : String) : Nat :=
  if alg == "md5" then 32 else 64

/-- `hash_obj.hexdigest()`: the state rendered as lowercase hex of the
algorithm's digest length. -/
def hexdigest (alg : String) (st : Nat) : String :=
  String.mk (toHexPad (hexLen alg) st)

/-- Chunked reading on fuel: each `read(4096)` consumes at least one byte
of a nonempty stream, so a fuel list at least as long as the byte stream
makes the fuel-exhausted branch unreachable while keeping the recursion
structural. -/
def chunksGo : List Nat → List Nat → List (List Nat)
  | _, [] => []
  | [], _ :: _ => []
  | _ :: fs, b :: bs => ((b :: bs).take 4096) :: chunksGo fs ((b :: bs).drop 4096)

/-- `iter(lambda: f.read(4096), b"")`: the byte stream split into
4096-byte chunks (the last one shorter). -/
def chunks4096 (bs : List Nat) : List (List Nat) :=
  chunksGo bs bs

/-- `get_file_hash` from the script: open the file, stream it in
4096-byte chunks through one digest object, return the hex digest.
`filebytes` is the content of the opened file. -/
def get_file_hash (filebytes : List Nat) (algorithm : String) : String :=
  hexdigest algorithm ((chunks4096 filebytes).foldl hashUpdate (hashInit algorithm))

/-- One archive entry serialized into the archive's byte stream.  Models
`zipfile.ZipFile.write` abstractly: the exact ZIP encoding is immaterial;
the model keeps it a deterministic function of (archive path, content). -/
def zipEntryBytes (e : List String × List Nat) : List Nat :=
  (e.1.flatMap (fun comp => encodeStr comp ++ [47])) ++ [0, e.2.length] ++ e.2

/-- The archive file's bytes: the concatenated serialization of its
entries (model of the ZIP container written with `ZIP_DEFLATED`). -/
def zipBytes (entries : List (List String × List Nat)) : List Nat :=
  entries.flatMap zipEntryBytes

/-- The text the script writes to `build_windows.bat`. -/
def windows_build_text : String :=
  "@echo off\n" ++
  "echo Building TinaKit v1.0.0 for Windows...\n" ++
  "\n" ++
  "REM Create build directory\n" ++
  "if not exist build mkdir build\n" ++
  "cd build\n" ++
  "\n" ++
  "REM Configure with CMake\n" ++
  "cmake .. -DCMAKE_BUILD_TYPE=Release -DTINAKIT_BUILD_TESTS=ON -DTINAKIT_BUILD_EXAMPLES=ON\n" ++
  "\n" ++
  "REM Build\n" ++
  "cmake --build . --config Release\n" ++
  "\n" ++
  "REM Run tests\n" ++
  "echo Running tests...\n" ++
  "ctest --output-on-failure\n" ++
  "\n" ++
  "echo Build complete! Check the build directory for binaries.\n" ++
  "pause\n"

/-- The text the script writes to `build_unix.sh`. -/
def unix_build_text : String :=
  "#!/bin/bash\n" ++
  "echo \"Building TinaKit v1.0.0 for Unix/Linux/macOS...\"\n" ++
  "\n" ++
  "# Create build directory\n" ++
  "mkdir -p build\n" ++
  "cd build\n" ++
  "\n" ++
  "# Configure with CMake\n" ++
  "cmake .. -DCMAKE_BUILD_TYPE=Release -DTINAKIT_BUILD_TESTS=ON -DTINAKIT_BUILD_EXAMPLES=ON\n" ++
  "\n" ++
  "# Build\n" ++
  "cmake --build . --config Release -j$(nproc 2>/dev/null || sysctl -n hw.ncpu 2>/dev/null || echo 4)\n" ++
  "\n" ++
  "# Run tests\n" ++
  "echo \"Running tests...\"\n" ++
  "ctest --output-on-failure\n" ++
  "\n" ++
  "echo \"Build complete! Check the build directory for binaries.\"\n"

/-- The text the script writes to `INSTALL.md`. -/
def install_guide_text : String :=
  "# TinaKit v1.0.0 Installation Guide\n" ++
  "\n" ++
  "## Requirements\n" ++
  "\n" ++
  "- **C++20 compatible compiler**\n" ++
  "  - GCC 10+ or Clang 12+ (Linux/macOS)\n" ++
  "  - Visual Studio 2019 16.11+ or Visual Studio 2022 (Windows)\n" ++
  "- **CMake 3.18 or later**\n" ++
  "- **Git** (for cloning dependencies)\n" ++
  "\n" ++
  "## Quick Start\n" ++
  "\n" ++
  "### Windows\n" ++
  "1. Open Command Prompt or PowerShell\n" ++
  "2. Navigate to the TinaKit directory\n" ++
  "3. Run: `build_windows.bat`\n" ++
  "\n" ++
  "### Linux/macOS\n" ++
  "1. Open terminal\n" ++
  "2. Navigate to the TinaKit directory\n" ++
  "3. Run: `chmod +x build_unix.sh && ./build_unix.sh`\n" ++
  "\n" ++
  "### Manual Build\n" ++
  "```bash\n" ++
  "# Create build directory\n" ++
  "mkdir build && cd build\n" ++
  "\n" ++
  "# Configure\n" ++
  "cmake .. -DCMAKE_BUILD_TYPE=Release -DTINAKIT_BUILD_TESTS=ON -DTINAKIT_BUILD_EXAMPLES=ON\n" ++
  "\n" ++
  "# Build\n" ++
  "cmake --build . --config Release\n" ++
  "\n" ++
  "# Test\n" ++
  "ctest --output-on-failure\n" ++
  "```\n" ++
  "\n" ++
  "## Integration\n" ++
  "\n" ++
  "### CMake Integration\n" ++
  "```cmake\n" ++
  "# Add TinaKit to your project\n" ++
  "add_subdirectory(path/to/tinakit)\n" ++
  "target_link_libraries(your_target tinakit)\n" ++
  "```\n" ++
  "\n" ++
  "### Basic Usage\n" ++
  "```cpp\n" ++
  "#include \"tinakit/tinakit.hpp\"\n" ++
  "\n" ++
  "int main() \x7b\n" ++
  "    auto workbook = tinakit::excel::Workbook::create();\n" ++
  "    auto sheet = workbook.active_sheet();\n" ++
  "    \n" ++
  "    sheet[\"A1\"].value(\"Hello, TinaKit!\");\n" ++
  "    workbook.save(\"hello.xlsx\");\n" ++
  "    \n" ++
  "    return 0;\n" ++
  "\x7d\n" ++
  "```\n" ++
  "\n" ++
  "## Documentation\n" ++
  "\n" ++
  "- See `docs/` directory for detailed documentation\n" ++
  "- Check `examples/` for usage examples\n" ++
  "- Read `README.md` for feature overview\n" ++
  "\n" ++
  "## Support\n" ++
  "\n" ++
  "- GitHub Issues: https://github.com/your-username/TinaKit/issues\n" ++
  "- Documentation: See docs/ directory\n"

/-- The text the script writes to `VERSION.txt`. -/
def version_info_text : String :=
  "TinaKit Version 1.0.0\n" ++
  "Release Date: 2025-06-21\n" ++
  "Build Type: Production Release\n" ++
  "\n" ++
  "Features:\n" ++
  "- Complete Excel (.xlsx) support\n" ++
  "- Modern C++20 architecture\n" ++
  "- High performance optimizations\n" ++
  "- 100% test coverage\n" ++
  "- Cross-platform compatibility\n" ++
  "\n" ++
  "Git Tag: v1.0.0\n" ++
  "Commit: [Latest commit hash]\n" ++
  "\n" ++
  "For detailed changes, see CHANGELOG.md\n"

/-- The text the script writes to `checksums.txt`, given the two computed
hex digests.  Note the `\n\n` after the separator and the alignment
padding after `MD5:`, both verbatim from the script's `f.write` calls. -/
def checksumsText (sha256_hash md5_hash : String) : String :=
  "TinaKit v1.0.0 Checksums\n" ++
  "========================\n\n" ++
  "File: tinakit-v1.0.0.zip\n" ++
  "SHA256: " ++ sha256_hash ++ "\n" ++
  "MD5:    " ++ md5_hash ++ "\n"

/-- Observable I/O actions of the pipeline, in program order.  `chmodFile`
and the `gen`/`copy`/staging events name files relative to the staging
tree; `archWrite` carries the archive-relative entry path. -/
inductive Event where
  | rmStaging
  | mkStaging
  | copyDir (dirName : String)
  | copyFile (fileName : String)
  | genFile (fileName : String)
  | chmodFile (fileName : String) (mode : Nat)
  | archOpen
  | archWrite (arcPath : List String)
  | archClose
  | hashOpen (alg : String)
  | hashRead (size : Nat)
  | hashClose (alg : String)
  | writeChecksums
  deriving Repr, DecidableEq

/-- The Python exceptions that can escape each stage.  The script defines
no `PathError` and performs no project-root existence check, so no such
kind exists here either. -/
inductive Err where
  | rmtreeError
  | mkdirError
  | copyError (dirName : String)
  | fileCopyError (fileName : String)
  | genError (fileName : String)
  | archiveError
  | checksumError
  deriving Repr, DecidableEq

/-- Injected OS behavior: the names (source directory / file / generated
artifact / output file) whose underlying I/O call raises an `OSError`
(permission denied, disk full, ...).  The script installs no exception
handler, so any such error propagates. -/
structure OsEnv where
  failing : List String
  deriving Repr, DecidableEq

/-- The environment in which no I/O call fails. -/
def cleanEnv : OsEnv := ⟨[]⟩

/-- Sequencing of two pipeline steps: events accumulate; the first raised
exception short-circuits the rest (no handler anywhere in the script). -/
def andThen (a : List Event × Except Err (List Entry))
    (f : List Entry → List Event × Except Err (List Entry)) :
    List Event × Except Err (List Entry) :=
  match a with
  | (evs, .error e) => (evs, .error e)
  | (evs, .ok fs) =>
    let (evs2, r) := f fs
    (evs ++ evs2, r)

/-- The staging directory's on-disk location: `release/tinakit-v1.0.0`
under the project root. -/
def releaseName : String := "tinakit-v1.0.0"

/-- The archive's file name under `release/`. -/
def zipName : String := "tinakit-v1.0.0.zip"

/-- The children of the `release` directory, when present. -/
def releaseChildren (fs : List Entry) : Option (List Entry) :=
  getDirChildren fs "release"

/-- The child entry `release/<n>`, when present. -/
def releaseChild (fs : List Entry) (n : String) : Option Entry :=
  match releaseChildren fs with
  | some rcs => findEntry rcs n
  | none => none

/-- The staging tree's children (`release/tinakit-v1.0.0/`), when present. -/
def stagingOf (fs : List Entry) : Option (List Entry) :=
  match releaseChild fs releaseName with
  | some (.dir _ scs) => some scs
  | _ => none

/-- The bytes of the regular file `release/<n>`, when present. -/
def releaseFileContent (fs : List Entry) (n : String) : Option (List Nat) :=
  match releaseChild fs n with
  | some (.file _ c) => some c
  | _ => none

/-- Replace the `release` directory's children (creating `release` if
absent — `mkdir(parents=True)` creates missing ancestors). -/
def setRelease (fs : List Entry) (rcs : List Entry) : List Entry :=
  upsert fs (.dir "release" rcs)

/-- Write one entry into the staging tree (no-op if the staging tree is
missing; every caller runs after it was created). -/
def intoStaging (fs : List Entry) (e : Entry) : List Entry :=
  match releaseChildren fs with
  | some rcs =>
    match findEntry rcs releaseName with
    | some (.dir _ scs) => setRelease fs (upsert rcs (.dir releaseName (upsert scs e)))
    | _ => fs
  | none => fs

/-- Write one entry into the `release` directory (no-op if missing). -/
def intoRelease (fs : List Entry) (e : Entry) : List Entry :=
  match releaseChildren fs with
  | some rcs => setRelease fs (upsert rcs e)
  | none => fs

/-- Lines 38–41 of the script: `if release_dir.exists(): shutil.rmtree(release_dir)`
then `release_dir.mkdir(parents=True, exist_ok=True)`.  `rmtree` on a
regular file raises `NotADirectoryError`; `mkdir` under a regular file
called `release` raises; otherwise the staging tree ends up an empty
directory.  There is no check that the project root itself exists. -/
def resetStaging (fs : List Entry) : List Event × Except Err (List Entry) :=
  match findEntry fs "release" with
  | some (.file _ _) => ([], .error .mkdirError)
  | some (.dir _ rcs) =>
    match findEntry rcs releaseName with
    | some (.dir _ _) =>
      ([.rmStaging, .mkStaging], .ok (setRelease fs (upsert rcs (.dir releaseName []))))
    | some (.file _ _) => ([], .error .rmtreeError)
    | none =>
      ([.mkStaging], .ok (setRelease fs (upsert rcs (.dir releaseName []))))
  | none => ([.mkStaging], .ok (setRelease fs [.dir releaseName []]))

/-- Lines 47–56: for each allow-listed directory name, if
`project_root/<name>` exists, `shutil.copytree` it into the staging tree
with the exclude filter.  A name that exists as a regular file also
passes `exists()`, and `copytree` then raises.  Absent names are
silently skipped. -/
def copyDirs (env : OsEnv) : List String → List Entry → List Event × Except Err (List Entry)
  | [], fs => ([], .ok fs)
  | d :: ds, fs =>
    match findEntry fs d with
    | some (.dir _ cs) =>
      if env.failing.contains d then ([], .error (.copyError d))
      else
        let fs1 := intoStaging fs (.dir d (filterTrees cs))
        let (evs, r) := copyDirs env ds fs1
        (.copyDir d :: evs, r)
    | some (.file _ _) => ([], .error (.copyError d))
    | none => copyDirs env ds fs

/-- Lines 60–68: for each allow-listed file name, if present at the
project root, `shutil.copy2` it into the staging tree root.  No exclude
filter is applied here.  A directory of that name passes `exists()` and
`copy2` then raises. -/
def copyFiles (env : OsEnv) : List String → List Entry → List Event × Except Err (List Entry)
  | [], fs => ([], .ok fs)
  | n :: ns, fs =>
    match findEntry fs n with
    | some (.file _ c) =>
      if env.failing.contains n then ([], .error (.fileCopyError n))
      else
        let fs1 := intoStaging fs (.file n c)
        let (evs, r) := copyFiles env ns fs1
        (.copyFile n :: evs, r)
    | some (.dir _ _) => ([], .error (.fileCopyError n))
    | none => copyFiles env ns fs

/-- One generated artifact: `open(path, 'w')` + `f.write(text)` inside the
staging tree.  `open` of a file for writing creates it with no executable
permission bits (the mode base is 0o666). -/
def genOne (env : OsEnv) (fileName : String) (text : String) (fs : List Entry) :
    List Event × Except Err (List Entry) :=
  if env.failing.contains fileName then ([], .error (.genError fileName))
  else ([.genFile fileName], .ok (intoStaging fs (.file fileName (encodeStr text))))

/-- Lines 70–225: generate `build_windows.bat`, `build_unix.sh` (then
`os.chmod(unix_build, 0o755)`), `INSTALL.md` and `VERSION.txt`, in that
order, directly inside the staging tree. -/
def generateStage (env : OsEnv) (fs : List Entry) : List Event × Except Err (List Entry) :=
  andThen (genOne env "build_windows.bat" windows_build_text fs) (fun fs1 =>
  andThen (genOne env "build_unix.sh" unix_build_text fs1) (fun fs2 =>
  andThen ([Event.chmodFile "build_unix.sh" 0o755], .ok fs2) (fun fs3 =>
  andThen (genOne env "INSTALL.md" install_guide_text fs3) (fun fs4 =>
  genOne env "VERSION.txt" version_info_text fs4))))

/-- The archive's entries: one per regular file under the staging tree,
with `arc_path = file_path.relative_to(release_dir.parent)`, i.e. the
staging-relative path prefixed by the release name. -/
def zipEntriesOf (scs : List Entry) : List (List String × List Nat) :=
  (walkFiles scs).map (fun pc => (releaseName :: pc.1, pc.2))

/-- Lines 228–235: open `release/tinakit-v1.0.0.zip` for writing, walk the
staging tree, write every file, close.  Opening fails if the target name
exists as a directory or the OS refuses. -/
def archiveStage (env : OsEnv) (fs : List Entry) : List Event × Except Err (List Entry) :=
  if env.failing.contains zipName then ([], .error .archiveError)
  else
    match releaseChild fs zipName with
    | some (.dir _ _) => ([], .error .archiveError)
    | _ =>
      match stagingOf fs with
      | some scs =>
        let entries := zipEntriesOf scs
        (.archOpen :: (entries.map (fun e => .archWrite e.1) ++ [.archClose]),
         .ok (intoRelease fs (.file zipName (zipBytes entries))))
      | none => ([], .error .archiveError)

/-- The trace of one `get_file_hash` call: open the archive, read it in
4096-byte chunks, close. -/
def hashPassEvents (alg : String) (bs : List Nat) : List Event :=
  .hashOpen alg :: ((chunks4096 bs).map (fun c => .hashRead c.length) ++ [.hashClose alg])

/-- Lines 239–259: open `release/checksums.txt` for writing, call
`get_file_hash` once with 'sha256' and once with 'md5' (two independent
passes over the archive), then write the manifest text. -/
def checksumStage (env : OsEnv) (fs : List Entry) : List Event × Except Err (List Entry) :=
  if env.failing.contains "checksums.txt" then ([], .error .checksumError)
  else
    match releaseChild fs "checksums.txt" with
    | some (.dir _ _) => ([], .error .checksumError)
    | _ =>
      match releaseFileContent fs zipName with
      | none => ([], .error .checksumError)
      | some zb =>
        let sha256_hash := get_file_hash zb "sha256"
        let md5_hash := get_file_hash zb "md5"
        (hashPassEvents "sha256" zb ++ hashPassEvents "md5" zb ++ [.writeChecksums],
         .ok (intoRelease fs (.file "checksums.txt" (encodeStr (checksumsText sha256_hash md5_hash)))))

/-- The staging phase (path setup + reset + both copy loops), so that the
state "immediately after the copy stage" is addressable.  The input is
the project root's listing; `none` models a project root that does not
exist on disk.  The script computes the root as the parent of its own
directory and never tests its existence; a missing root behaves exactly
like an empty one because every read is an `exists()` probe and the first
write is `mkdir(parents=True)`, which creates missing ancestors. -/
def stagingPhase (env : OsEnv) (rootOpt : Option (List Entry)) :
    List Event × Except Err (List Entry) :=
  andThen (resetStaging (rootOpt.getD [])) (fun fs1 =>
  andThen (copyDirs env source_dirs fs1) (fun fs2 =>
  copyFiles env important_files fs2))

/-- `create_release_package()`: the whole pipeline, strictly sequential.
Returns the event trace and either the final filesystem (project-root
listing) or the first uncaught exception. -/
def create_release_package (env : OsEnv) (rootOpt : Option (List Entry)) :
    List Event × Except Err (List Entry) :=
  andThen (stagingPhase env rootOpt) (fun fs3 =>
  andThen (generateStage env fs3) (fun fs4 =>
  andThen (archiveStage env fs4) (fun fs5 =>
  checksumStage env fs5)))

/-- The `if __name__ == "__main__": create_release_package()` entry point:
a run that completes exits with status 0; an uncaught exception makes the
interpreter exit with status 1. -/
def mainExitCode (env : OsEnv) (rootOpt : Option (List Entry)) : Nat :=
  match (create_release_package env rootOpt).2 with
  | .ok _ => 0
  | .error _ => 1

/-- The names of a directory listing. -/
def namesOf (es : List Entry) : List String :=
  es.map Entry.name

/-- True when the entry called `n` exists and is a directory. -/
def isDirEntry (es : List Entry) (n : String) : Bool :=
  match findEntry es n with
  | some (.dir _ _) => true
  | _ => false

/-- On a real filesystem the output locations under `release/` can only
be: absent, or of the kind the pipeline itself writes.  A project root
violating this (say, a regular file named `release`, or a directory named
`tinakit-v1.0.0.zip`) makes the corresponding Python I/O call raise. -/
def releaseAreaOk (fs : List Entry) : Bool :=
  match findEntry fs "release" with
  | none => true
  | some (.file _ _) => false
  | some (.dir _ rcs) =>
    (match findEntry rcs releaseName with
     | some (.file _ _) => false
     | _ => true) &&
    (match findEntry rcs zipName with
     | some (.dir _ _) => false
     | _ => true) &&
    (match findEntry rcs "checksums.txt" with
     | some (.dir _ _) => false
     | _ => true)

/-- Well-formed project root: the output area is usable and no
allow-listed directory name is taken by a regular file (nor an
allow-listed file name by a directory) — the configurations in which the
script's I/O calls do not raise. -/
def wfInput (fs : List Entry) : Bool :=
  releaseAreaOk fs &&
  source_dirs.all (fun d => !isFileEntry fs d) &&
  important_files.all (fun n => !isDirEntry fs n)

/-- The directory entries the copy stage materializes from `sourceList`
(present allow-listed directories, exclude-filtered). -/
def dirEnts (sourceList : List String) (fs : List Entry) : List Entry :=
  sourceList.filterMap (fun d => (getDirChildren fs d).map (fun cs => Entry.dir d (filterTrees cs)))

/-- The file entries the copy stage materializes from `fileList`
(present allow-listed standalone files, copied verbatim). -/
def fileEnts (fileList : List String) (fs : List Entry) : List Entry :=
  fileList.filterMap (fun n => (getFileContent fs n).map (fun c => Entry.file n c))

/-- The staging listing the copy stage produces from project root `fs`. -/
def copiedStaging (fs : List Entry) : List Entry :=
  dirEnts source_dirs fs ++ fileEnts important_files fs

/-- The four artifacts the generation stage writes into the staging tree. -/
def generatedEntries : List Entry :=
  [.file "build_windows.bat" (encodeStr windows_build_text),
   .file "build_unix.sh" (encodeStr unix_build_text),
   .file "INSTALL.md" (encodeStr install_guide_text),
   .file "VERSION.txt" (encodeStr version_info_text)]

/-- The staging listing after copy and generation. -/
def fullStaging (fs : List Entry) : List Entry :=
  copiedStaging fs ++ generatedEntries

/-- Events that read the archive for hashing. -/
def isHashEv : Event → Bool
  | .hashOpen _ => true
  | .hashRead _ => true
  | .hashClose _ => true
  | _ => false

/-- Opening the archive for one digest pass. -/
def isHashOpen : Event → Bool
  | .hashOpen _ => true
  | _ => false

/-- A permission change. -/
def isChmodEvent : Event → Bool
  | .chmodFile _ _ => true
  | _ => false

/-- Events that mutate the filesystem (everything except the read-only
hashing events). -/
def isMutationEvent : Event → Bool
  | .hashOpen _ => false
  | .hashRead _ => false
  | .hashClose _ => false
  | _ => true

/-- True when no hashing event occurs before the first `archClose` of the
trace (trivially true for traces with no hashing at all). -/
def noHashBeforeClose : List Event → Bool
  | [] => true
  | .archClose :: _ => true
  | e :: rest => !isHashEv e && noHashBeforeClose rest

/-- Whether a mode word carries any of the executable permission bits
(0o100, 0o010, 0o001). -/
def hasExecBit (m : Nat) : Bool :=
  (m / 64) % 2 == 1 || (m / 8) % 2 == 1 || m % 2 == 1

/-- The project root of the spec's walkthrough scenario: only `README.md`
and `src/foo.cpp` exist. -/
def exampleRoot : List Entry :=
  [.dir "src" [.file "foo.cpp" [102]], .file "README.md" [104]]

/-- A project root carrying a `.gitignore` both at top level and inside
an allow-listed directory. -/
def gitignoreRoot : List Entry :=
  [.dir "src" [.file "foo.cpp" [102], .file ".gitignore" [42]],
   .file ".gitignore" [35]]

/-- The sixteen lowercase hexadecimal digit characters: the ten decimal
digits (codes 48–57) followed by the letters a–f (codes 97–102). -/
def lowerHexChars : List Char :=
  (List.range 10).map (fun n => Char.ofNat (48 + n)) ++
    (List.range 6).map (fun n => Char.ofNat (97 + n))

/-- True when every character of `s` is a lowercase hex digit. -/
def isLowerHex (s : String) : Bool :=
  s.data.all (fun c => lowerHexChars.contains c)

/-- The checksum manifest written by a run, decoded and split into lines
(`none` when the run failed or wrote no manifest). -/
def manifestLinesOf (rootOpt : Option (List Entry)) : Option (List String) :=
  match (create_release_package cleanEnv rootOpt).2 with
  | .ok st => (releaseFileContent st "checksums.txt").map (fun cb => linesOf (decodeStr cb))
  | .error _ => none

theorem findEntry_cons (e : Entry) (es : List Entry) (n : String) :
    findEntry (e :: es) n = if e.name == n then some e else findEntry es n := by
  cases h : e.name == n <;> simp [findEntry, List.find?, h]

theorem findEntry_upsert_self (es : List Entry) (e : Entry) :
    findEntry (upsert es e) e.name = some e := by
  induction es with
  | nil => simp [upsert, findEntry, List.find?]
  | cons x xs ih =>
    cases h : x.name == e.name with
    | true => simp [upsert, h, findEntry, List.find?]
    | false =>
      have hne : (x.name == e.name) = false := h
      simp only [upsert, hne, Bool.false_eq_true, if_false]
      rw [findEntry_cons, hne, if_neg (by simp)]
      · exact ih

theorem findEntry_upsert_ne (es : List Entry) (e : Entry) (n : String) (h : n ≠ e.name) :
    findEntry (upsert es e) n = findEntry es n := by
  induction es with
  | nil =>
    have he : (e.name == n) = false := by
      simp only [beq_eq_false_iff_ne]
      exact fun hh => h hh.symm
    simp [upsert, findEntry, List.find?, he]
  | cons x xs ih =>
    cases hx : x.name == e.name with
    | true =>
      have hxe : x.name = e.name := eq_of_beq hx
      simp only [upsert, hx, if_true]
      rw [findEntry_cons, findEntry_cons]
      have h1 : (e.name == n) = false := by
        simp only [beq_eq_false_iff_ne]
        exact fun hh => h hh.symm
      have h2 : (x.name == n) = false := by
        simp only [beq_eq_false_iff_ne, hxe]
        exact fun hh => h hh.symm
      rw [h1, h2]
      simp
    | false =>
      simp only [upsert, hx, Bool.false_eq_true, if_false]
      rw [findEntry_cons, findEntry_cons]
      cases hxn : x.name == n with
      | true => simp
      | false => simpa using ih

theorem upsert_fresh (es : List Entry) (e : Entry)
    (h : ∀ x ∈ es, x.name ≠ e.name) : upsert es e = es ++ [e] := by
  induction es with
  | nil => rfl
  | cons x xs ih =>
    have hx : (x.name == e.name) = false := by
      simp only [beq_eq_false_iff_ne]
      exact h x (List.mem_cons_self x xs)
    simp only [upsert, hx, Bool.false_eq_true, if_false, List.cons_append, List.cons.injEq,
      true_and]
    exact ih (fun y hy => h y (List.mem_cons_of_mem x hy))

theorem findEntry_mem (es : List Entry) (n : String) (e : Entry)
    (h : findEntry es n = some e) : e ∈ es ∧ e.name = n := by
  unfold findEntry at h
  refine ⟨List.mem_of_find?_eq_some h, ?_⟩
  have := List.find?_some h
  exact eq_of_beq this

theorem findEntry_append_right (l1 l2 : List Entry) (n : String)
    (h : ∀ e ∈ l1, e.name ≠ n) : findEntry (l1 ++ l2) n = findEntry l2 n := by
  induction l1 with
  | nil => rfl
  | cons x xs ih =>
    rw [List.cons_append, findEntry_cons]
    have hx : (x.name == n) = false := by
      simp only [beq_eq_false_iff_ne]
      exact h x (List.mem_cons_self x xs)
    rw [hx]
    simp only [Bool.false_eq_true, if_false]
    exact ih (fun y hy => h y (List.mem_cons_of_mem x hy))

theorem releaseChildren_setRelease (fs rcs : List Entry) :
    releaseChildren (setRelease fs rcs) = some rcs := by
  have h := findEntry_upsert_self fs (Entry.dir "release" rcs)
  simp only [Entry.name] at h
  simp [releaseChildren, setRelease, getDirChildren, h]

theorem findEntry_setRelease_ne (fs rcs : List Entry) (n : String) (h : n ≠ "release") :
    findEntry (setRelease fs rcs) n = findEntry fs n := by
  exact findEntry_upsert_ne fs (Entry.dir "release" rcs) n h

theorem releaseChild_eq (fs rcs : List Entry) (n : String)
    (h : releaseChildren fs = some rcs) : releaseChild fs n = findEntry rcs n := by
  unfold releaseChild
  rw [h]

theorem releaseChild_none (fs : List Entry) (n : String)
    (h : releaseChildren fs = none) : releaseChild fs n = none := by
  unfold releaseChild
  rw [h]

theorem stagingOf_dir (fs rcs scs : List Entry)
    (h1 : releaseChildren fs = some rcs)
    (h2 : findEntry rcs releaseName = some (Entry.dir releaseName scs)) :
    stagingOf fs = some scs := by
  unfold stagingOf
  rw [releaseChild_eq fs rcs _ h1, h2]

theorem stagingOf_inv (fs scs : List Entry) (h : stagingOf fs = some scs) :
    ∃ rcs, releaseChildren fs = some rcs ∧
      findEntry rcs releaseName = some (Entry.dir releaseName scs) := by
  unfold stagingOf at h
  cases hr : releaseChildren fs with
  | none => rw [releaseChild_none fs _ hr] at h; simp at h
  | some rcs =>
    rw [releaseChild_eq fs rcs _ hr] at h
    cases hf : findEntry rcs releaseName with
    | none => rw [hf] at h; simp at h
    | some e =>
      rw [hf] at h
      cases e with
      | file nm c => simp at h
      | dir nm cs =>
        have hnm := (findEntry_mem rcs releaseName _ hf).2
        simp only [Entry.name] at hnm
        simp only [Option.some.injEq] at h
        exact ⟨rcs, rfl, by rw [hf, hnm, h]⟩

theorem intoStaging_eq (fs rcs scs : List Entry) (e : Entry)
    (h1 : releaseChildren fs = some rcs)
    (h2 : findEntry rcs releaseName = some (Entry.dir releaseName scs)) :
    intoStaging fs e = setRelease fs (upsert rcs (Entry.dir releaseName (upsert scs e))) := by
  unfold intoStaging
  rw [h1]
  show (match findEntry rcs releaseName with
    | some (.dir _ scs) => setRelease fs (upsert rcs (Entry.dir releaseName (upsert scs e)))
    | _ => fs) = _
  rw [h2]

theorem stagingOf_intoStaging (fs scs : List Entry) (e : Entry) (h : stagingOf fs = some scs) :
    stagingOf (intoStaging fs e) = some (upsert scs e) := by
  obtain ⟨rcs, hr, hf⟩ := stagingOf_inv fs scs h
  rw [intoStaging_eq fs rcs scs e hr hf]
  have hx := findEntry_upsert_self rcs (Entry.dir releaseName (upsert scs e))
  simp only [Entry.name] at hx
  exact stagingOf_dir _ _ _ (releaseChildren_setRelease _ _) hx

theorem intoStaging_fallback (fs : List Entry) (e : Entry)
    (h : ∀ rcs scs, releaseChildren fs = some rcs →
      findEntry rcs releaseName ≠ some (Entry.dir releaseName scs)) :
    intoStaging fs e = fs := by
  unfold intoStaging
  cases hr : releaseChildren fs with
  | none => rfl
  | some rcs =>
    show (match findEntry rcs releaseName with
      | some (.dir _ scs) => setRelease fs (upsert rcs (Entry.dir releaseName (upsert scs e)))
      | _ => fs) = fs
    cases hf : findEntry rcs releaseName with
    | none => rfl
    | some x =>
      cases x with
      | file nm c => rfl
      | dir nm cs =>
        have hnm := (findEntry_mem rcs releaseName _ hf).2
        simp only [Entry.name] at hnm
        subst hnm
        exact absurd hf (h rcs cs hr)

theorem releaseChild_intoStaging_ne (fs : List Entry) (e : Entry) (n : String)
    (h : n ≠ releaseName) : releaseChild (intoStaging fs e) n = releaseChild fs n := by
  unfold intoStaging
  cases hr : releaseChildren fs with
  | none => rfl
  | some rcs =>
    show releaseChild (match findEntry rcs releaseName with
      | some (.dir _ scs) => setRelease fs (upsert rcs (Entry.dir releaseName (upsert scs e)))
      | _ => fs) n = releaseChild fs n
    cases hf : findEntry rcs releaseName with
    | none => rfl
    | some x =>
      cases x with
      | file nm c => rfl
      | dir nm cs =>
        show releaseChild (setRelease fs (upsert rcs (Entry.dir releaseName (upsert cs e)))) n =
          releaseChild fs n
        have hx := findEntry_upsert_ne rcs (Entry.dir releaseName (upsert cs e)) n (by simpa using h)
        rw [releaseChild_eq _ _ _ (releaseChildren_setRelease _ _), hx,
          releaseChild_eq fs rcs n hr]

theorem findEntry_intoStaging_ne (fs : List Entry) (e : Entry) (n : String)
    (h : n ≠ "release") : findEntry (intoStaging fs e) n = findEntry fs n := by
  unfold intoStaging
  cases hr : releaseChildren fs with
  | none => rfl
  | some rcs =>
    show findEntry (match findEntry rcs releaseName with
      | some (.dir _ scs) => setRelease fs (upsert rcs (Entry.dir releaseName (upsert scs e)))
      | _ => fs) n = findEntry fs n
    cases hf : findEntry rcs releaseName with
    | none => rfl
    | some x =>
      cases x with
      | file nm c => rfl
      | dir nm cs =>
        show findEntry (setRelease fs (upsert rcs (Entry.dir releaseName (upsert cs e)))) n =
          findEntry fs n
        exact findEntry_setRelease_ne fs _ n h

theorem intoRelease_eq (fs rcs : List Entry) (e : Entry)
    (h : releaseChildren fs = some rcs) :
    intoRelease fs e = setRelease fs (upsert rcs e) := by
  unfold intoRelease
  rw [h]

theorem releaseChild_intoRelease_self (fs : List Entry) (e : Entry) (rcs : List Entry)
    (h : releaseChildren fs = some rcs) : releaseChild (intoRelease fs e) e.name = some e := by
  rw [intoRelease_eq fs rcs e h,
    releaseChild_eq _ _ _ (releaseChildren_setRelease _ _)]
  exact findEntry_upsert_self rcs e

theorem releaseChild_intoRelease_ne (fs : List Entry) (e : Entry) (n : String)
    (h : n ≠ e.name) : releaseChild (intoRelease fs e) n = releaseChild fs n := by
  unfold intoRelease
  cases hr : releaseChildren fs with
  | none => rfl
  | some rcs =>
    show releaseChild (setRelease fs (upsert rcs e)) n = releaseChild fs n
    rw [releaseChild_eq _ _ _ (releaseChildren_setRelease _ _), findEntry_upsert_ne rcs e n h,
      releaseChild_eq fs rcs n hr]

theorem findEntry_intoRelease_ne (fs : List Entry) (e : Entry) (n : String)
    (h : n ≠ "release") : findEntry (intoRelease fs e) n = findEntry fs n := by
  unfold intoRelease
  cases hr : releaseChildren fs with
  | none => rfl
  | some rcs =>
    show findEntry (setRelease fs (upsert rcs e)) n = findEntry fs n
    exact findEntry_setRelease_ne fs _ n h

theorem stagingOf_intoRelease_ne (fs : List Entry) (e : Entry) (h : e.name ≠ releaseName) :
    stagingOf (intoRelease fs e) = stagingOf fs := by
  unfold stagingOf
  rw [releaseChild_intoRelease_ne fs e releaseName (fun hh => h hh.symm)]

theorem releaseAreaOk_not_dir (fs : List Entry) (m : String) (h : releaseAreaOk fs = true)
    (hm : m = zipName ∨ m = "checksums.txt") :
    ∀ nm cs, releaseChild fs m ≠ some (Entry.dir nm cs) := by
  intro nm cs
  unfold releaseAreaOk at h
  cases hfr : findEntry fs "release" with
  | none =>
    have : releaseChildren fs = none := by
      unfold releaseChildren getDirChildren
      rw [hfr]
    rw [releaseChild_none fs m this]
    simp
  | some e =>
    rw [hfr] at h
    cases e with
    | file a b => simp at h
    | dir a rcs =>
      have hrc : releaseChildren fs = some rcs := by
        unfold releaseChildren getDirChildren
        rw [hfr]
      rw [releaseChild_eq fs rcs m hrc]
      simp only [Bool.and_eq_true] at h
      intro hfind
      rcases hm with hz | hc
      · subst hz
        have h2 := h.1.2
        rw [hfind] at h2
        simp at h2
      · subst hc
        have h3 := h.2
        rw [hfind] at h3
        simp at h3

theorem resetStaging_eq_noRelease (fs : List Entry) (h : findEntry fs "release" = none) :
    resetStaging fs = ([.mkStaging], .ok (setRelease fs [.dir releaseName []])) := by
  unfold resetStaging
  simp only [h]

theorem resetStaging_eq_noStaging (fs : List Entry) (a : String) (rcs : List Entry)
    (h1 : findEntry fs "release" = some (.dir a rcs))
    (h2 : findEntry rcs releaseName = none) :
    resetStaging fs = ([.mkStaging], .ok (setRelease fs (upsert rcs (.dir releaseName [])))) := by
  unfold resetStaging
  simp only [h1, h2]

theorem resetStaging_eq_oldStaging (fs : List Entry) (a nm : String) (rcs cs : List Entry)
    (h1 : findEntry fs "release" = some (.dir a rcs))
    (h2 : findEntry rcs releaseName = some (.dir nm cs)) :
    resetStaging fs =
      ([.rmStaging, .mkStaging], .ok (setRelease fs (upsert rcs (.dir releaseName [])))) := by
  unfold resetStaging
  simp only [h1, h2]

theorem resetStaging_spec (fs : List Entry) (h : releaseAreaOk fs = true) :
    ∃ evs fs1, resetStaging fs = (evs, .ok fs1) ∧
      stagingOf fs1 = some [] ∧
      (∀ n, n ≠ "release" → findEntry fs1 n = findEntry fs n) ∧
      (∀ n, n ≠ releaseName → releaseChild fs1 n = releaseChild fs n) ∧
      evs.all (fun e => e == Event.rmStaging || e == Event.mkStaging) = true := by
  unfold releaseAreaOk at h
  cases hfr : findEntry fs "release" with
  | none =>
    refine ⟨[.mkStaging], setRelease fs [.dir releaseName []],
      resetStaging_eq_noRelease fs hfr, ?_, ?_, ?_, by decide⟩
    · refine stagingOf_dir _ [.dir releaseName []] [] (releaseChildren_setRelease _ _) ?_
      rw [findEntry_cons]
      simp [Entry.name]
    · exact fun n hn => findEntry_setRelease_ne fs _ n hn
    · intro n hn
      have hrc : releaseChildren fs = none := by
        unfold releaseChildren getDirChildren
        rw [hfr]
      rw [releaseChild_none fs n hrc,
        releaseChild_eq _ _ _ (releaseChildren_setRelease _ _), findEntry_cons]
      have : ((Entry.dir releaseName []).name == n) = false := by
        simp only [Entry.name, beq_eq_false_iff_ne]
        exact fun hh => hn hh.symm
      rw [this]
      rfl
  | some e =>
    rw [hfr] at h
    cases e with
    | file a b => simp at h
    | dir a rcs =>
      have hrc : releaseChildren fs = some rcs := by
        unfold releaseChildren getDirChildren
        rw [hfr]
      have hcommon : stagingOf (setRelease fs (upsert rcs (Entry.dir releaseName []))) = some [] := by
        refine stagingOf_dir _ _ _ (releaseChildren_setRelease _ _) ?_
        have hx := findEntry_upsert_self rcs (Entry.dir releaseName [])
        simpa [Entry.name] using hx
      have hpres : ∀ n, n ≠ "release" →
          findEntry (setRelease fs (upsert rcs (Entry.dir releaseName []))) n = findEntry fs n :=
        fun n hn => findEntry_setRelease_ne fs _ n hn
      have hrel : ∀ n, n ≠ releaseName →
          releaseChild (setRelease fs (upsert rcs (Entry.dir releaseName []))) n =
            releaseChild fs n := by
        intro n hn
        rw [releaseChild_eq _ _ _ (releaseChildren_setRelease _ _),
          findEntry_upsert_ne rcs _ n (by simpa [Entry.name] using hn),
          releaseChild_eq fs rcs n hrc]
      cases hfs : findEntry rcs releaseName with
      | none =>
        exact ⟨[.mkStaging], setRelease fs (upsert rcs (Entry.dir releaseName [])),
          resetStaging_eq_noStaging fs a rcs hfr hfs, hcommon, hpres, hrel, by decide⟩
      | some x =>
        cases x with
        | file nm c =>
          simp only [Bool.and_eq_true] at h
          have h1 := h.1.1
          rw [hfs] at h1
          simp at h1
        | dir nm cs =>
          exact ⟨[.rmStaging, .mkStaging], setRelease fs (upsert rcs (Entry.dir releaseName [])),
            resetStaging_eq_oldStaging fs a nm rcs cs hfr hfs, hcommon, hpres, hrel, by decide⟩

theorem isFileEntry_congr (fs1 fs : List Entry) (d : String)
    (h : findEntry fs1 d = findEntry fs d) : isFileEntry fs1 d = isFileEntry fs d := by
  unfold isFileEntry
  rw [h]

theorem isDirEntry_congr (fs1 fs : List Entry) (d : String)
    (h : findEntry fs1 d = findEntry fs d) : isDirEntry fs1 d = isDirEntry fs d := by
  unfold isDirEntry
  rw [h]

theorem getDirChildren_congr (fs1 fs : List Entry) (d : String)
    (h : findEntry fs1 d = findEntry fs d) : getDirChildren fs1 d = getDirChildren fs d := by
  unfold getDirChildren
  rw [h]

theorem getFileContent_congr (fs1 fs : List Entry) (d : String)
    (h : findEntry fs1 d = findEntry fs d) : getFileContent fs1 d = getFileContent fs d := by
  unfold getFileContent
  rw [h]

theorem dirEnts_congr (ds : List String) (fs1 fs : List Entry)
    (h : ∀ d ∈ ds, findEntry fs1 d = findEntry fs d) : dirEnts ds fs1 = dirEnts ds fs := by
  induction ds with
  | nil => rfl
  | cons d ds ih =>
    unfold dirEnts
    rw [List.filterMap_cons, List.filterMap_cons,
      getDirChildren_congr fs1 fs d (h d (List.mem_cons_self d ds))]
    have := ih (fun x hx => h x (List.mem_cons_of_mem d hx))
    unfold dirEnts at this
    rw [this]

theorem fileEnts_congr (ns : List String) (fs1 fs : List Entry)
    (h : ∀ n ∈ ns, findEntry fs1 n = findEntry fs n) : fileEnts ns fs1 = fileEnts ns fs := by
  induction ns with
  | nil => rfl
  | cons n ns ih =>
    unfold fileEnts
    rw [List.filterMap_cons, List.filterMap_cons,
      getFileContent_congr fs1 fs n (h n (List.mem_cons_self n ns))]
    have := ih (fun x hx => h x (List.mem_cons_of_mem n hx))
    unfold fileEnts at this
    rw [this]

theorem dirEnts_cons_absent (d : String) (ds : List String) (fs : List Entry)
    (h : findEntry fs d = none) : dirEnts (d :: ds) fs = dirEnts ds fs := by
  unfold dirEnts
  rw [List.filterMap_cons]
  unfold getDirChildren
  rw [h]
  rfl

theorem dirEnts_cons_dir (d : String) (ds : List String) (fs : List Entry)
    (nm : String) (cs : List Entry) (h : findEntry fs d = some (.dir nm cs)) :
    dirEnts (d :: ds) fs = Entry.dir d (filterTrees cs) :: dirEnts ds fs := by
  unfold dirEnts
  rw [List.filterMap_cons]
  unfold getDirChildren
  rw [h]
  rfl

theorem fileEnts_cons_absent (n : String) (ns : List String) (fs : List Entry)
    (h : findEntry fs n = none) : fileEnts (n :: ns) fs = fileEnts ns fs := by
  unfold fileEnts
  rw [List.filterMap_cons]
  unfold getFileContent
  rw [h]
  rfl

theorem fileEnts_cons_file (n : String) (ns : List String) (fs : List Entry)
    (nm : String) (c : List Nat) (h : findEntry fs n = some (.file nm c)) :
    fileEnts (n :: ns) fs = Entry.file n c :: fileEnts ns fs := by
  unfold fileEnts
  rw [List.filterMap_cons]
  unfold getFileContent
  rw [h]
  rfl

theorem copyDirs_eq_absent (env : OsEnv) (d : String) (ds : List String) (fs : List Entry)
    (h : findEntry fs d = none) : copyDirs env (d :: ds) fs = copyDirs env ds fs := by
  conv_lhs => unfold copyDirs
  simp only [h]

theorem copyDirs_eq_dir (d : String) (ds : List String) (fs : List Entry)
    (nm : String) (cs : List Entry) (evs : List Event) (r : Except Err (List Entry))
    (h : findEntry fs d = some (.dir nm cs))
    (hrec : copyDirs cleanEnv ds (intoStaging fs (.dir d (filterTrees cs))) = (evs, r)) :
    copyDirs cleanEnv (d :: ds) fs = (.copyDir d :: evs, r) := by
  have hc : cleanEnv.failing.contains d = false := rfl
  unfold copyDirs
  simp only [h, hc, Bool.false_eq_true, if_false, hrec]

theorem copyFiles_eq_absent (env : OsEnv) (n : String) (ns : List String) (fs : List Entry)
    (h : findEntry fs n = none) : copyFiles env (n :: ns) fs = copyFiles env ns fs := by
  conv_lhs => unfold copyFiles
  simp only [h]

theorem copyFiles_eq_file (n : String) (ns : List String) (fs : List Entry)
    (nm : String) (c : List Nat) (evs : List Event) (r : Except Err (List Entry))
    (h : findEntry fs n = some (.file nm c))
    (hrec : copyFiles cleanEnv ns (intoStaging fs (.file n c)) = (evs, r)) :
    copyFiles cleanEnv (n :: ns) fs = (.copyFile n :: evs, r) := by
  have hc : cleanEnv.failing.contains n = false := rfl
  unfold copyFiles
  simp only [h, hc, Bool.false_eq_true, if_false, hrec]

theorem copyDirs_spec (ds : List String) :
    ∀ fs scs, stagingOf fs = some scs →
    (∀ d ∈ ds, d ≠ "release") →
    (∀ d ∈ ds, isFileEntry fs d = false) →
    (∀ d ∈ ds, ∀ x ∈ scs, x.name ≠ d) →
    ds.Nodup →
    ∃ evs fs2, copyDirs cleanEnv ds fs = (evs, .ok fs2) ∧
      stagingOf fs2 = some (scs ++ dirEnts ds fs) ∧
      (∀ n, n ≠ "release" → findEntry fs2 n = findEntry fs n) ∧
      (∀ n, n ≠ releaseName → releaseChild fs2 n = releaseChild fs n) ∧
      evs.all (fun e => match e with | Event.copyDir _ => true | _ => false) = true := by
  induction ds with
  | nil =>
    intro fs scs hstag _ _ _ _
    exact ⟨[], fs, rfl, by simpa [dirEnts] using hstag, fun n _ => rfl, fun n _ => rfl, rfl⟩
  | cons d ds ih =>
    intro fs scs hstag hrel hfile hfresh hnodup
    have hdrel : d ≠ "release" := hrel d (List.mem_cons_self d ds)
    cases hfd : findEntry fs d with
    | none =>
      obtain ⟨evs, fs2, h1, h2, h3, h4, h5⟩ :=
        ih fs scs hstag (fun x hx => hrel x (List.mem_cons_of_mem d hx))
          (fun x hx => hfile x (List.mem_cons_of_mem d hx))
          (fun x hx => hfresh x (List.mem_cons_of_mem d hx))
          (List.Nodup.of_cons hnodup)
      refine ⟨evs, fs2, by rw [copyDirs_eq_absent cleanEnv d ds fs hfd]; exact h1, ?_, h3, h4, h5⟩
      rw [dirEnts_cons_absent d ds fs hfd]
      exact h2
    | some e =>
      cases e with
      | file nm c =>
        exfalso
        have := hfile d (List.mem_cons_self d ds)
        unfold isFileEntry at this
        rw [hfd] at this
        simp at this
      | dir nm cs =>
        have hstag1 : stagingOf (intoStaging fs (.dir d (filterTrees cs))) =
            some (upsert scs (.dir d (filterTrees cs))) :=
          stagingOf_intoStaging fs scs _ hstag
        have hups : upsert scs (Entry.dir d (filterTrees cs)) =
            scs ++ [Entry.dir d (filterTrees cs)] := by
          refine upsert_fresh scs _ (fun x hx => ?_)
          simpa [Entry.name] using hfresh d (List.mem_cons_self d ds) x hx
        have hpres1 : ∀ n, n ≠ "release" →
            findEntry (intoStaging fs (.dir d (filterTrees cs))) n = findEntry fs n :=
          fun n hn => findEntry_intoStaging_ne fs _ n hn
        have hnotin : d ∉ ds := (List.nodup_cons.mp hnodup).1
        obtain ⟨evs2, fs2, h1, h2, h3, h4, h5⟩ :=
          ih (intoStaging fs (.dir d (filterTrees cs))) (scs ++ [Entry.dir d (filterTrees cs)])
            (by rw [hstag1, hups])
            (fun x hx => hrel x (List.mem_cons_of_mem d hx))
            (fun x hx => by
              rw [isFileEntry_congr _ fs x (hpres1 x (hrel x (List.mem_cons_of_mem d hx)))]
              exact hfile x (List.mem_cons_of_mem d hx))
            (fun x hx y hy => by
              rcases List.mem_append.mp hy with hy1 | hy2
              · exact hfresh x (List.mem_cons_of_mem d hx) y hy1
              · have : y = Entry.dir d (filterTrees cs) := by simpa using hy2
                subst this
                simp only [Entry.name]
                intro hcon
                exact hnotin (hcon ▸ hx))
            (List.Nodup.of_cons hnodup)
        refine ⟨.copyDir d :: evs2, fs2,
          copyDirs_eq_dir d ds fs nm cs evs2 (.ok fs2) hfd h1, ?_, ?_, ?_, ?_⟩
        · rw [h2, dirEnts_congr ds _ fs
            (fun x hx => hpres1 x (hrel x (List.mem_cons_of_mem d hx))),
            dirEnts_cons_dir d ds fs nm cs hfd]
          simp [List.append_assoc]
        · exact fun n hn => (h3 n hn).trans (hpres1 n hn)
        · exact fun n hn => (h4 n hn).trans (releaseChild_intoStaging_ne fs _ n hn)
        · simpa using h5

theorem copyFiles_spec (ns : List String) :
    ∀ fs scs, stagingOf fs = some scs →
    (∀ n ∈ ns, n ≠ "release") →
    (∀ n ∈ ns, isDirEntry fs n = false) →
    (∀ n ∈ ns, ∀ x ∈ scs, x.name ≠ n) →
    ns.Nodup →
    ∃ evs fs2, copyFiles cleanEnv ns fs = (evs, .ok fs2) ∧
      stagingOf fs2 = some (scs ++ fileEnts ns fs) ∧
      (∀ n, n ≠ "release" → findEntry fs2 n = findEntry fs n) ∧
      (∀ n, n ≠ releaseName → releaseChild fs2 n = releaseChild fs n) ∧
      evs.all (fun e => match e with | Event.copyFile _ => true | _ => false) = true := by
  induction ns with
  | nil =>
    intro fs scs hstag _ _ _ _
    exact ⟨[], fs, rfl, by simpa [fileEnts] using hstag, fun n _ => rfl, fun n _ => rfl, rfl⟩
  | cons n ns ih =>
    intro fs scs hstag hrel hdir hfresh hnodup
    have hnrel : n ≠ "release" := hrel n (List.mem_cons_self n ns)
    cases hfd : findEntry fs n with
    | none =>
      obtain ⟨evs, fs2, h1, h2, h3, h4, h5⟩ :=
        ih fs scs hstag (fun x hx => hrel x (List.mem_cons_of_mem n hx))
          (fun x hx => hdir x (List.mem_cons_of_mem n hx))
          (fun x hx => hfresh x (List.mem_cons_of_mem n hx))
          (List.Nodup.of_cons hnodup)
      refine ⟨evs, fs2, by rw [copyFiles_eq_absent cleanEnv n ns fs hfd]; exact h1, ?_, h3, h4, h5⟩
      rw [fileEnts_cons_absent n ns fs hfd]
      exact h2
    | some e =>
      cases e with
      | dir nm cs =>
        exfalso
        have := hdir n (List.mem_cons_self n ns)
        unfold isDirEntry at this
        rw [hfd] at this
        simp at this
      | file nm c =>
        have hstag1 : stagingOf (intoStaging fs (.file n c)) =
            some (upsert scs (.file n c)) :=
          stagingOf_intoStaging fs scs _ hstag
        have hups : upsert scs (Entry.file n c) = scs ++ [Entry.file n c] := by
          refine upsert_fresh scs _ (fun x hx => ?_)
          simpa [Entry.name] using hfresh n (List.mem_cons_self n ns) x hx
        have hpres1 : ∀ m, m ≠ "release" →
            findEntry (intoStaging fs (.file n c)) m = findEntry fs m :=
          fun m hm => findEntry_intoStaging_ne fs _ m hm
        have hnotin : n ∉ ns := (List.nodup_cons.mp hnodup).1
        obtain ⟨evs2, fs2, h1, h2, h3, h4, h5⟩ :=
          ih (intoStaging fs (.file n c)) (scs ++ [Entry.file n c])
            (by rw [hstag1, hups])
            (fun x hx => hrel x (List.mem_cons_of_mem n hx))
            (fun x hx => by
              rw [isDirEntry_congr _ fs x (hpres1 x (hrel x (List.mem_cons_of_mem n hx)))]
              exact hdir x (List.mem_cons_of_mem n hx))
            (fun x hx y hy => by
              rcases List.mem_append.mp hy with hy1 | hy2
              · exact hfresh x (List.mem_cons_of_mem n hx) y hy1
              · have : y = Entry.file n c := by simpa using hy2
                subst this
                simp only [Entry.name]
                intro hcon
                exact hnotin (hcon ▸ hx))
            (List.Nodup.of_cons hnodup)
        refine ⟨.copyFile n :: evs2, fs2,
          copyFiles_eq_file n ns fs nm c evs2 (.ok fs2) hfd h1, ?_, ?_, ?_, ?_⟩
        · rw [h2, fileEnts_congr ns _ fs
            (fun x hx => hpres1 x (hrel x (List.mem_cons_of_mem n hx))),
            fileEnts_cons_file n ns fs nm c hfd]
          simp [List.append_assoc]
        · exact fun m hm => (h3 m hm).trans (hpres1 m hm)
        · exact fun m hm => (h4 m hm).trans (releaseChild_intoStaging_ne fs _ m hm)
        · simpa using h5

theorem andThen_ok (a : List Event × Except Err (List Entry))
    (f : List Entry → List Event × Except Err (List Entry))
    (evs : List Event) (fs : List Entry) (h : a = (evs, .ok fs)) :
    andThen a f = (evs ++ (f fs).1, (f fs).2) := by
  subst h
  cases hf : f fs with
  | mk evs2 r => simp [andThen, hf]

theorem andThen_ok2 (a : List Event × Except Err (List Entry))
    (f : List Entry → List Event × Except Err (List Entry))
    (evs : List Event) (fs : List Entry) (evs2 : List Event) (r : Except Err (List Entry))
    (h : a = (evs, .ok fs)) (h2 : f fs = (evs2, r)) :
    andThen a f = (evs ++ evs2, r) := by
  rw [andThen_ok a f evs fs h, h2]

theorem andThen_error (a : List Event × Except Err (List Entry))
    (f : List Entry → List Event × Except Err (List Entry))
    (evs : List Event) (err : Err) (h : a = (evs, .error err)) :
    andThen a f = (evs, .error err) := by
  subst h
  rfl

theorem andThen_fst (a : List Event × Except Err (List Entry))
    (f : List Entry → List Event × Except Err (List Entry)) :
    (andThen a f).1 = a.1 ++ (match a.2 with | .ok fs => (f fs).1 | .error _ => []) := by
  cases a with
  | mk evs r =>
    cases r with
    | ok fs =>
      cases hf : f fs with
      | mk evs2 r2 => simp [andThen, hf]
    | error e => simp [andThen]

theorem generateStage_eq (fs : List Entry) :
    generateStage cleanEnv fs =
      ([.genFile "build_windows.bat", .genFile "build_unix.sh",
        .chmodFile "build_unix.sh" 0o755, .genFile "INSTALL.md", .genFile "VERSION.txt"],
       .ok (intoStaging (intoStaging (intoStaging (intoStaging fs
         (.file "build_windows.bat" (encodeStr windows_build_text)))
         (.file "build_unix.sh" (encodeStr unix_build_text)))
         (.file "INSTALL.md" (encodeStr install_guide_text)))
         (.file "VERSION.txt" (encodeStr version_info_text)))) := rfl

theorem generateStage_spec (fs scs : List Entry) (hstag : stagingOf fs = some scs)
    (hfresh : ∀ x ∈ scs,
      x.name ∉ (["build_windows.bat", "build_unix.sh", "INSTALL.md", "VERSION.txt"] : List String)) :
    ∃ fs4, generateStage cleanEnv fs =
      ([.genFile "build_windows.bat", .genFile "build_unix.sh",
        .chmodFile "build_unix.sh" 0o755, .genFile "INSTALL.md", .genFile "VERSION.txt"],
       .ok fs4) ∧
      stagingOf fs4 = some (scs ++ generatedEntries) ∧
      (∀ n, n ≠ "release" → findEntry fs4 n = findEntry fs n) ∧
      (∀ n, n ≠ releaseName → releaseChild fs4 n = releaseChild fs n) := by
  refine ⟨_, generateStage_eq fs, ?_, ?_, ?_⟩
  · have h1 := stagingOf_intoStaging fs scs
      (.file "build_windows.bat" (encodeStr windows_build_text)) hstag
    rw [upsert_fresh scs _ (fun x hx => by
      intro hc
      exact hfresh x hx (by rw [hc]; decide))] at h1
    have h2 := stagingOf_intoStaging _ _
      (.file "build_unix.sh" (encodeStr unix_build_text)) h1
    rw [upsert_fresh _ _ (fun x hx => by
      rcases List.mem_append.mp hx with hx1 | hx2
      · intro hc
        exact hfresh x hx1 (by rw [hc]; decide)
      · have : x = Entry.file "build_windows.bat" (encodeStr windows_build_text) := by
          simpa using hx2
        subst this
        decide)] at h2
    have h3 := stagingOf_intoStaging _ _
      (.file "INSTALL.md" (encodeStr install_guide_text)) h2
    rw [upsert_fresh _ _ (fun x hx => by
      rcases List.mem_append.mp hx with hx0 | hx2
      · rcases List.mem_append.mp hx0 with hx1 | hx3
        · intro hc
          exact hfresh x hx1 (by rw [hc]; decide)
        · have : x = Entry.file "build_windows.bat" (encodeStr windows_build_text) := by
            simpa using hx3
          subst this
          decide
      · have : x = Entry.file "build_unix.sh" (encodeStr unix_build_text) := by
          simpa using hx2
        subst this
        decide)] at h3
    have h4 := stagingOf_intoStaging _ _
      (.file "VERSION.txt" (encodeStr version_info_text)) h3
    rw [upsert_fresh _ _ (fun x hx => by
      rcases List.mem_append.mp hx with hx0 | hx2
      · rcases List.mem_append.mp hx0 with hx00 | hx3
        · rcases List.mem_append.mp hx00 with hx1 | hx4
          · intro hc
            exact hfresh x hx1 (by rw [hc]; decide)
          · have : x = Entry.file "build_windows.bat" (encodeStr windows_build_text) := by
              simpa using hx4
            subst this
            decide
        · have : x = Entry.file "build_unix.sh" (encodeStr unix_build_text) := by
            simpa using hx3
          subst this
          decide
      · have : x = Entry.file "INSTALL.md" (encodeStr install_guide_text) := by
          simpa using hx2
        subst this
        decide)] at h4
    rw [h4]
    simp [generatedEntries, List.append_assoc]
  · intro n hn
    rw [findEntry_intoStaging_ne _ _ n hn, findEntry_intoStaging_ne _ _ n hn,
      findEntry_intoStaging_ne _ _ n hn, findEntry_intoStaging_ne _ _ n hn]
  · intro n hn
    rw [releaseChild_intoStaging_ne _ _ n hn, releaseChild_intoStaging_ne _ _ n hn,
      releaseChild_intoStaging_ne _ _ n hn, releaseChild_intoStaging_ne _ _ n hn]

theorem archiveStage_eq (fs scs : List Entry) (hstag : stagingOf fs = some scs)
    (hzip : ∀ nm cs, releaseChild fs zipName ≠ some (.dir nm cs)) :
    archiveStage cleanEnv fs =
      (.archOpen :: ((zipEntriesOf scs).map (fun e => .archWrite e.1) ++ [.archClose]),
       .ok (intoRelease fs (.file zipName (zipBytes (zipEntriesOf scs))))) := by
  have hc : cleanEnv.failing.contains zipName = false := rfl
  unfold archiveStage
  rw [hc]
  simp only [Bool.false_eq_true, if_false]
  cases hz : releaseChild fs zipName with
  | none => simp only [hstag]
  | some e =>
    cases e with
    | file nm c => simp only [hstag]
    | dir nm cs => exact absurd hz (hzip nm cs)

theorem archiveStage_spec (fs scs : List Entry) (hstag : stagingOf fs = some scs)
    (hzip : ∀ nm cs, releaseChild fs zipName ≠ some (.dir nm cs)) :
    ∃ fs5, archiveStage cleanEnv fs =
      (.archOpen :: ((zipEntriesOf scs).map (fun e => .archWrite e.1) ++ [.archClose]),
       .ok fs5) ∧
      releaseFileContent fs5 zipName = some (zipBytes (zipEntriesOf scs)) ∧
      stagingOf fs5 = some scs ∧
      (∀ n, n ≠ "release" → findEntry fs5 n = findEntry fs n) ∧
      (∀ n, n ≠ releaseName → n ≠ zipName → releaseChild fs5 n = releaseChild fs n) := by
  refine ⟨_, archiveStage_eq fs scs hstag hzip, ?_, ?_, ?_, ?_⟩
  · obtain ⟨rcs, hr, _⟩ := stagingOf_inv fs scs hstag
    have := releaseChild_intoRelease_self fs (.file zipName (zipBytes (zipEntriesOf scs))) rcs hr
    simp only [Entry.name] at this
    unfold releaseFileContent
    rw [this]
  · rw [stagingOf_intoRelease_ne fs _ (by simp only [Entry.name]; decide)]
    exact hstag
  · exact fun n hn => findEntry_intoRelease_ne fs _ n hn
  · intro n _ hn2
    exact releaseChild_intoRelease_ne fs _ n (by simpa [Entry.name] using hn2)

theorem checksumStage_eq (fs : List Entry) (zb : List Nat)
    (hzip : releaseFileContent fs zipName = some zb)
    (hck : ∀ nm cs, releaseChild fs "checksums.txt" ≠ some (.dir nm cs)) :
    checksumStage cleanEnv fs =
      (hashPassEvents "sha256" zb ++ hashPassEvents "md5" zb ++ [.writeChecksums],
       .ok (intoRelease fs (.file "checksums.txt"
         (encodeStr (checksumsText (get_file_hash zb "sha256") (get_file_hash zb "md5")))))) := by
  have hc : cleanEnv.failing.contains "checksums.txt" = false := rfl
  unfold checksumStage
  rw [hc]
  simp only [Bool.false_eq_true, if_false]
  cases hk : releaseChild fs "checksums.txt" with
  | none => simp only [hzip]
  | some e =>
    cases e with
    | file nm c => simp only [hzip]
    | dir nm cs => exact absurd hk (hck nm cs)

theorem checksumStage_spec (fs : List Entry) (zb : List Nat)
    (hzip : releaseFileContent fs zipName = some zb)
    (hck : ∀ nm cs, releaseChild fs "checksums.txt" ≠ some (.dir nm cs)) :
    ∃ st, checksumStage cleanEnv fs =
      (hashPassEvents "sha256" zb ++ hashPassEvents "md5" zb ++ [.writeChecksums],
       .ok st) ∧
      releaseFileContent st "checksums.txt" =
        some (encodeStr (checksumsText (get_file_hash zb "sha256") (get_file_hash zb "md5"))) ∧
      releaseFileContent st zipName = some zb ∧
      stagingOf st = stagingOf fs ∧
      (∀ n, n ≠ "release" → findEntry st n = findEntry fs n) := by
  have hrel : ∃ rcs, releaseChildren fs = some rcs := by
    unfold releaseFileContent releaseChild at hzip
    cases hr : releaseChildren fs with
    | none => rw [hr] at hzip; simp at hzip
    | some rcs => exact ⟨rcs, rfl⟩
  obtain ⟨rcs, hr⟩ := hrel
  refine ⟨_, checksumStage_eq fs zb hzip hck, ?_, ?_, ?_, ?_⟩
  · have := releaseChild_intoRelease_self fs (.file "checksums.txt"
      (encodeStr (checksumsText (get_file_hash zb "sha256") (get_file_hash zb "md5")))) rcs hr
    simp only [Entry.name] at this
    unfold releaseFileContent
    rw [this]
  · unfold releaseFileContent
    rw [releaseChild_intoRelease_ne fs _ zipName (by simp only [Entry.name]; decide)]
    exact hzip
  · exact stagingOf_intoRelease_ne fs _ (by simp only [Entry.name]; decide)
  · exact fun n hn => findEntry_intoRelease_ne fs _ n hn

theorem all_imp (p1 p2 : Event → Bool) (l : List Event) (h : l.all p1 = true)
    (himp : ∀ e, p1 e = true → p2 e = true) : l.all p2 = true := by
  rw [List.all_eq_true] at h ⊢
  exact fun e he => himp e (h e he)

theorem countP_zero_of_all_not (p : Event → Bool) (l : List Event)
    (h : l.all (fun e => !p e) = true) : l.countP p = 0 := by
  rw [List.countP_eq_zero]
  intro a ha
  have := List.all_eq_true.mp h a ha
  simpa using this

theorem filter_nil_of_all_not (p : Event → Bool) (l : List Event)
    (h : l.all (fun e => !p e) = true) : l.filter p = [] := by
  rw [List.filter_eq_nil_iff]
  intro a ha
  have := List.all_eq_true.mp h a ha
  simpa using this

theorem hashPassEvents_countP_isHashOpen (alg : String) (bs : List Nat) :
    (hashPassEvents alg bs).countP isHashOpen = 1 := by
  unfold hashPassEvents
  rw [List.countP_cons, List.countP_append, List.countP_map]
  have h1 : (chunks4096 bs).countP (isHashOpen ∘ fun c => Event.hashRead c.length) = 0 := by
    rw [List.countP_eq_zero]
    intro a _
    simp [isHashOpen]
  rw [h1]
  simp [isHashOpen]

theorem hashPassEvents_filter_chmod (alg : String) (bs : List Nat) :
    (hashPassEvents alg bs).filter isChmodEvent = [] := by
  rw [List.filter_eq_nil_iff]
  intro a ha
  unfold hashPassEvents at ha
  rcases List.mem_cons.mp ha with h | h
  · subst h; simp [isChmodEvent]
  · rcases List.mem_append.mp h with h2 | h2
    · obtain ⟨c, _, hc⟩ := List.mem_map.mp h2
      subst hc; simp [isChmodEvent]
    · have : a = Event.hashClose alg := by simpa using h2
      subst this; simp [isChmodEvent]

theorem hashPassEvents_all_hash (alg : String) (bs : List Nat) :
    (hashPassEvents alg bs).all isHashEv = true := by
  rw [List.all_eq_true]
  intro a ha
  unfold hashPassEvents at ha
  rcases List.mem_cons.mp ha with h | h
  · subst h; simp [isHashEv]
  · rcases List.mem_append.mp h with h2 | h2
    · obtain ⟨c, _, hc⟩ := List.mem_map.mp h2
      subst hc; simp [isHashEv]
    · have : a = Event.hashClose alg := by simpa using h2
      subst this; simp [isHashEv]

theorem resetEv_class (e : Event) (he : (e == Event.rmStaging || e == Event.mkStaging) = true) :
    isHashEv e = false ∧ isChmodEvent e = false ∧ isHashOpen e = false ∧
      (e == Event.archClose) = false := by
  cases e <;> simp_all [isHashEv, isChmodEvent, isHashOpen]

theorem copyDirEv_class (e : Event)
    (he : (match e with | Event.copyDir _ => true | _ => false) = true) :
    isHashEv e = false ∧ isChmodEvent e = false ∧ isHashOpen e = false ∧
      (e == Event.archClose) = false := by
  cases e <;> simp_all [isHashEv, isChmodEvent, isHashOpen]

theorem copyFileEv_class (e : Event)
    (he : (match e with | Event.copyFile _ => true | _ => false) = true) :
    isHashEv e = false ∧ isChmodEvent e = false ∧ isHashOpen e = false ∧
      (e == Event.archClose) = false := by
  cases e <;> simp_all [isHashEv, isChmodEvent, isHashOpen]

theorem mem_dirEnts_name (ds : List String) (fs : List Entry) (x : Entry)
    (h : x ∈ dirEnts ds fs) : x.name ∈ ds := by
  unfold dirEnts at h
  obtain ⟨d, hd, hf⟩ := List.mem_filterMap.mp h
  cases ho : getDirChildren fs d with
  | none => rw [ho] at hf; simp at hf
  | some cs =>
    rw [ho] at hf
    simp only [Option.map] at hf
    rw [Option.some.injEq] at hf
    rw [← hf]
    simpa [Entry.name] using hd

theorem mem_fileEnts_name (ns : List String) (fs : List Entry) (x : Entry)
    (h : x ∈ fileEnts ns fs) : x.name ∈ ns := by
  unfold fileEnts at h
  obtain ⟨n, hn, hf⟩ := List.mem_filterMap.mp h
  cases ho : getFileContent fs n with
  | none => rw [ho] at hf; simp at hf
  | some c =>
    rw [ho] at hf
    simp only [Option.map] at hf
    rw [Option.some.injEq] at hf
    rw [← hf]
    simpa [Entry.name] using hn

theorem run_clean_spec (fs : List Entry) (h : wfInput fs = true) :
    ∃ evs st, create_release_package cleanEnv (some fs) = (evs, .ok st) ∧
      stagingOf st = some (fullStaging fs) ∧
      releaseFileContent st zipName = some (zipBytes (zipEntriesOf (fullStaging fs))) ∧
      releaseFileContent st "checksums.txt" =
        some (encodeStr (checksumsText
          (get_file_hash (zipBytes (zipEntriesOf (fullStaging fs))) "sha256")
          (get_file_hash (zipBytes (zipEntriesOf (fullStaging fs))) "md5"))) ∧
      (∀ n, n ≠ "release" → findEntry st n = findEntry fs n) ∧
      evs.countP isHashOpen = 2 ∧
      evs.filter isChmodEvent = [.chmodFile "build_unix.sh" 0o755] := by
  simp only [wfInput, Bool.and_eq_true] at h
  obtain ⟨⟨hA, hB⟩, hC⟩ := h
  have hBe : ∀ d ∈ source_dirs, isFileEntry fs d = false := by
    intro d hd
    have := List.all_eq_true.mp hB d hd
    simpa using this
  have hCe : ∀ n ∈ important_files, isDirEntry fs n = false := by
    intro n hn
    have := List.all_eq_true.mp hC n hn
    simpa using this
  obtain ⟨evs1, fs1, hr1, hst1, hp1, hrc1, he1⟩ := resetStaging_spec fs hA
  have hsd_rel : ∀ d ∈ source_dirs, d ≠ "release" := by decide
  have hif_rel : ∀ n ∈ important_files, n ≠ "release" := by decide
  obtain ⟨evs2, fs2, hr2, hst2, hp2, hrc2, he2⟩ :=
    copyDirs_spec source_dirs fs1 [] hst1 hsd_rel
      (fun d hd => by
        rw [isFileEntry_congr fs1 fs d (hp1 d (hsd_rel d hd))]
        exact hBe d hd)
      (fun d _ x hx => absurd hx (List.not_mem_nil x))
      (by decide)
  have hde1 : dirEnts source_dirs fs1 = dirEnts source_dirs fs :=
    dirEnts_congr source_dirs fs1 fs (fun d hd => hp1 d (hsd_rel d hd))
  rw [List.nil_append, hde1] at hst2
  obtain ⟨evs3, fs3, hr3, hst3, hp3, hrc3, he3⟩ :=
    copyFiles_spec important_files fs2 (dirEnts source_dirs fs) hst2 hif_rel
      (fun n hn => by
        rw [isDirEntry_congr fs2 fs1 n (hp2 n (hif_rel n hn)),
          isDirEntry_congr fs1 fs n (hp1 n (hif_rel n hn))]
        exact hCe n hn)
      (fun n hn x hx => by
        have hx2 := mem_dirEnts_name source_dirs fs x hx
        have hdisj : ∀ s ∈ source_dirs, s ∉ important_files := by decide
        intro hc
        exact hdisj x.name hx2 (hc ▸ hn))
      (by decide)
  have hfe1 : fileEnts important_files fs2 = fileEnts important_files fs := by
    rw [fileEnts_congr important_files fs2 fs1 (fun n hn => hp2 n (hif_rel n hn)),
      fileEnts_congr important_files fs1 fs (fun n hn => hp1 n (hif_rel n hn))]
  rw [hfe1] at hst3
  have hst3' : stagingOf fs3 = some (copiedStaging fs) := hst3
  obtain ⟨fs4, hr4, hst4, hp4, hrc4⟩ :=
    generateStage_spec fs3 (copiedStaging fs) hst3'
      (fun x hx => by
        unfold copiedStaging at hx
        have hd1 : ∀ s ∈ source_dirs,
            s ∉ (["build_windows.bat", "build_unix.sh", "INSTALL.md", "VERSION.txt"] : List String) := by
          decide
        have hd2 : ∀ s ∈ important_files,
            s ∉ (["build_windows.bat", "build_unix.sh", "INSTALL.md", "VERSION.txt"] : List String) := by
          decide
        rcases List.mem_append.mp hx with h1 | h2
        · exact hd1 x.name (mem_dirEnts_name source_dirs fs x h1)
        · exact hd2 x.name (mem_fileEnts_name important_files fs x h2))
  have hst4' : stagingOf fs4 = some (fullStaging fs) := by
    rw [hst4]
    rfl
  have hzip4 : ∀ nm cs, releaseChild fs4 zipName ≠ some (.dir nm cs) := by
    intro nm cs
    have hzr : zipName ≠ releaseName := by decide
    rw [hrc4 zipName hzr, hrc3 zipName hzr, hrc2 zipName hzr, hrc1 zipName hzr]
    exact releaseAreaOk_not_dir fs zipName hA (Or.inl rfl) nm cs
  obtain ⟨fs5, hr5, hzc5, hst5, hp5, hrc5⟩ :=
    archiveStage_spec fs4 (fullStaging fs) hst4' hzip4
  have hck5 : ∀ nm cs, releaseChild fs5 "checksums.txt" ≠ some (.dir nm cs) := by
    intro nm cs
    have hc1 : ("checksums.txt" : String) ≠ releaseName := by decide
    have hc2 : ("checksums.txt" : String) ≠ zipName := by decide
    rw [hrc5 "checksums.txt" hc1 hc2, hrc4 "checksums.txt" hc1, hrc3 "checksums.txt" hc1,
      hrc2 "checksums.txt" hc1, hrc1 "checksums.txt" hc1]
    exact releaseAreaOk_not_dir fs "checksums.txt" hA (Or.inr rfl) nm cs
  obtain ⟨st, hr6, hck6, hzc6, hst6, hp6⟩ :=
    checksumStage_spec fs5 (zipBytes (zipEntriesOf (fullStaging fs))) hzc5 hck5
  have hcf : andThen (copyDirs cleanEnv source_dirs fs1)
      (fun fs2 => copyFiles cleanEnv important_files fs2) = (evs2 ++ evs3, .ok fs3) :=
    andThen_ok2 _ _ _ fs2 _ _ hr2 hr3
  have hphase : stagingPhase cleanEnv (some fs) = (evs1 ++ (evs2 ++ evs3), .ok fs3) :=
    andThen_ok2 (resetStaging ((some fs).getD []))
      (fun fs1 => andThen (copyDirs cleanEnv source_dirs fs1)
        (fun fs2 => copyFiles cleanEnv important_files fs2)) _ fs1 _ _ hr1 hcf
  have hstep3 : andThen (archiveStage cleanEnv fs4) (fun fs5 => checksumStage cleanEnv fs5) =
      ((.archOpen :: ((zipEntriesOf (fullStaging fs)).map (fun e => .archWrite e.1) ++
         [.archClose])) ++
       (hashPassEvents "sha256" (zipBytes (zipEntriesOf (fullStaging fs))) ++
        hashPassEvents "md5" (zipBytes (zipEntriesOf (fullStaging fs))) ++
        [.writeChecksums]), .ok st) :=
    andThen_ok2 (archiveStage cleanEnv fs4) (fun fs5 => checksumStage cleanEnv fs5)
      _ fs5 _ _ hr5 hr6
  have hstep2 : andThen (generateStage cleanEnv fs3)
      (fun fs4 => andThen (archiveStage cleanEnv fs4) (fun fs5 => checksumStage cleanEnv fs5)) =
      ([.genFile "build_windows.bat", .genFile "build_unix.sh",
        .chmodFile "build_unix.sh" 0o755, .genFile "INSTALL.md", .genFile "VERSION.txt"] ++
       ((.archOpen :: ((zipEntriesOf (fullStaging fs)).map (fun e => .archWrite e.1) ++
          [.archClose])) ++
        (hashPassEvents "sha256" (zipBytes (zipEntriesOf (fullStaging fs))) ++
         hashPassEvents "md5" (zipBytes (zipEntriesOf (fullStaging fs))) ++
         [.writeChecksums])), .ok st) :=
    andThen_ok2 (generateStage cleanEnv fs3)
      (fun fs4 => andThen (archiveStage cleanEnv fs4) (fun fs5 => checksumStage cleanEnv fs5))
      _ fs4 _ _ hr4 hstep3
  have hrun : create_release_package cleanEnv (some fs) =
      ((evs1 ++ (evs2 ++ evs3)) ++
        ([.genFile "build_windows.bat", .genFile "build_unix.sh",
          .chmodFile "build_unix.sh" 0o755, .genFile "INSTALL.md", .genFile "VERSION.txt"] ++
         ((.archOpen :: ((zipEntriesOf (fullStaging fs)).map (fun e => .archWrite e.1) ++
            [.archClose])) ++
          (hashPassEvents "sha256" (zipBytes (zipEntriesOf (fullStaging fs))) ++
           hashPassEvents "md5" (zipBytes (zipEntriesOf (fullStaging fs))) ++
           [.writeChecksums]))), .ok st) :=
    andThen_ok2 (stagingPhase cleanEnv (some fs))
      (fun fs3 => andThen (generateStage cleanEnv fs3)
        (fun fs4 => andThen (archiveStage cleanEnv fs4) (fun fs5 => checksumStage cleanEnv fs5)))
      _ fs3 _ _ hphase hstep2
  refine ⟨_, st, hrun, hst6.trans hst5, hzc6, hck6, ?_, ?_, ?_⟩
  · intro n hn
    rw [hp6 n hn, hp5 n hn, hp4 n hn, hp3 n hn, hp2 n hn, hp1 n hn]
  · have hz1 : evs1.countP isHashOpen = 0 :=
      countP_zero_of_all_not _ _ (all_imp _ _ _ he1
        (fun e he => by rw [(resetEv_class e he).2.2.1]; rfl))
    have hz2 : evs2.countP isHashOpen = 0 :=
      countP_zero_of_all_not _ _ (all_imp _ _ _ he2
        (fun e he => by rw [(copyDirEv_class e he).2.2.1]; rfl))
    have hz3 : evs3.countP isHashOpen = 0 :=
      countP_zero_of_all_not _ _ (all_imp _ _ _ he3
        (fun e he => by rw [(copyFileEv_class e he).2.2.1]; rfl))
    have hzw : ((zipEntriesOf (fullStaging fs)).map
        (fun e => Event.archWrite e.1)).countP isHashOpen = 0 := by
      rw [List.countP_map, List.countP_eq_zero]
      intro a _
      simp [isHashOpen]
    simp [List.countP_append, List.countP_cons, hz1, hz2, hz3, hzw,
      hashPassEvents_countP_isHashOpen, isHashOpen]
  · have hf1 : evs1.filter isChmodEvent = [] :=
      filter_nil_of_all_not _ _ (all_imp _ _ _ he1
        (fun e he => by rw [(resetEv_class e he).2.1]; rfl))
    have hf2 : evs2.filter isChmodEvent = [] :=
      filter_nil_of_all_not _ _ (all_imp _ _ _ he2
        (fun e he => by rw [(copyDirEv_class e he).2.1]; rfl))
    have hf3 : evs3.filter isChmodEvent = [] :=
      filter_nil_of_all_not _ _ (all_imp _ _ _ he3
        (fun e he => by rw [(copyFileEv_class e he).2.1]; rfl))
    have hfw : ((zipEntriesOf (fullStaging fs)).map
        (fun e => Event.archWrite e.1)).filter isChmodEvent = [] := by
      rw [List.filter_eq_nil_iff]
      intro a ha
      obtain ⟨c, _, hc⟩ := List.mem_map.mp ha
      subst hc
      simp [isChmodEvent]
    simp [List.filter_append, List.filter_cons, hf1, hf2, hf3, hfw,
      hashPassEvents_filter_chmod, isChmodEvent]

theorem releaseChildren_inv (st rcs : List Entry) (h : releaseChildren st = some rcs) :
    ∃ nm, findEntry st "release" = some (.dir nm rcs) := by
  unfold releaseChildren getDirChildren at h
  cases hf : findEntry st "release" with
  | none => rw [hf] at h; simp at h
  | some e =>
    rw [hf] at h
    cases e with
    | file nm c => simp at h
    | dir nm cs => simp only [Option.some.injEq] at h; exact ⟨nm, by rw [h]⟩

theorem releaseFileContent_inv (st : List Entry) (n : String) (c : List Nat)
    (h : releaseFileContent st n = some c) :
    ∃ nm, releaseChild st n = some (.file nm c) := by
  unfold releaseFileContent at h
  cases hf : releaseChild st n with
  | none => rw [hf] at h; simp at h
  | some e =>
    rw [hf] at h
    cases e with
    | dir nm cs => simp at h
    | file nm c2 => simp only [Option.some.injEq] at h; exact ⟨nm, by rw [h]⟩

theorem fullStaging_congr (fs1 fs : List Entry)
    (h : ∀ n, n ≠ "release" → findEntry fs1 n = findEntry fs n) :
    fullStaging fs1 = fullStaging fs := by
  have hsd : ∀ d ∈ source_dirs, d ≠ "release" := by decide
  have hif : ∀ n ∈ important_files, n ≠ "release" := by decide
  unfold fullStaging copiedStaging
  rw [dirEnts_congr source_dirs fs1 fs (fun d hd => h d (hsd d hd)),
    fileEnts_congr important_files fs1 fs (fun n hn => h n (hif n hn))]

theorem wfInput_of_run (fs st : List Entry) (h : wfInput fs = true)
    (hstag : ∃ scs, stagingOf st = some scs)
    (hzip : ∃ zb, releaseFileContent st zipName = some zb)
    (hck : ∃ cb, releaseFileContent st "checksums.txt" = some cb)
    (hpres : ∀ n, n ≠ "release" → findEntry st n = findEntry fs n) :
    wfInput st = true := by
  simp only [wfInput, Bool.and_eq_true] at h ⊢
  obtain ⟨⟨_, hB⟩, hC⟩ := h
  obtain ⟨scs, hstag⟩ := hstag
  obtain ⟨zb, hzip⟩ := hzip
  obtain ⟨cb, hck⟩ := hck
  obtain ⟨rcs, hrc, hsf⟩ := stagingOf_inv st scs hstag
  obtain ⟨nm, hfr⟩ := releaseChildren_inv st rcs hrc
  obtain ⟨nm1, hz⟩ := releaseFileContent_inv st zipName zb hzip
  obtain ⟨nm2, hc⟩ := releaseFileContent_inv st "checksums.txt" cb hck
  rw [releaseChild_eq st rcs _ hrc] at hz hc
  refine ⟨⟨?_, ?_⟩, ?_⟩
  · unfold releaseAreaOk
    rw [hfr]
    show (((match findEntry rcs releaseName with
        | some (Entry.file _ _) => false
        | _ => true) &&
      (match findEntry rcs zipName with
        | some (Entry.dir _ _) => false
        | _ => true)) &&
      (match findEntry rcs "checksums.txt" with
        | some (Entry.dir _ _) => false
        | _ => true)) = true
    rw [hsf, hz, hc]
    rfl
  · have hsd : ∀ d ∈ source_dirs, d ≠ "release" := by decide
    rw [List.all_eq_true] at hB ⊢
    intro d hd
    have := hB d hd
    rwa [isFileEntry_congr st fs d (hpres d (hsd d hd))]
  · have hif : ∀ n ∈ important_files, n ≠ "release" := by decide
    rw [List.all_eq_true] at hC ⊢
    intro n hn
    have := hC n hn
    rwa [isDirEntry_congr st fs n (hpres n (hif n hn))]

theorem genEv_class (e : Event)
    (he : (match e with
      | Event.genFile _ => true
      | Event.chmodFile _ _ => true
      | _ => false) = true) :
    isHashEv e = false ∧ isHashOpen e = false ∧ (e == Event.archClose) = false := by
  cases e <;> simp_all [isHashEv, isHashOpen]

theorem csEv_class (e : Event) (he : (isHashEv e || e == Event.writeChecksums) = true) :
    (e == Event.archClose) = false ∧ isChmodEvent e = false := by
  cases e <;> simp_all [isHashEv, isChmodEvent]

theorem andThen_all (p : Event → Bool) (a : List Event × Except Err (List Entry))
    (f : List Entry → List Event × Except Err (List Entry))
    (h1 : a.1.all p = true) (h2 : ∀ fs', ((f fs').1.all p) = true) :
    ((andThen a f).1.all p) = true := by
  rw [andThen_fst, List.all_append, Bool.and_eq_true]
  refine ⟨h1, ?_⟩
  cases a.2 with
  | ok fs' => exact h2 fs'
  | error e => rfl

theorem resetStaging_events (fs : List Entry) :
    (resetStaging fs).1.all (fun e => e == Event.rmStaging || e == Event.mkStaging) = true := by
  unfold resetStaging
  cases findEntry fs "release" with
  | none => rfl
  | some e =>
    cases e with
    | file nm c => rfl
    | dir nm rcs =>
      show ((match findEntry rcs releaseName with
        | some (Entry.dir _ _) =>
          ([Event.rmStaging, Event.mkStaging],
            Except.ok (setRelease fs (upsert rcs (Entry.dir releaseName []))))
        | some (Entry.file _ _) => (([] : List Event), Except.error Err.rmtreeError)
        | none =>
          ([Event.mkStaging],
            Except.ok (setRelease fs (upsert rcs (Entry.dir releaseName []))))).1.all
        (fun e => e == Event.rmStaging || e == Event.mkStaging)) = true
      cases findEntry rcs releaseName with
      | none => rfl
      | some x => cases x <;> rfl

theorem copyDirs_events (env : OsEnv) (ds : List String) : ∀ fs,
    ((copyDirs env ds fs).1.all
      (fun e => match e with | Event.copyDir _ => true | _ => false)) = true := by
  induction ds with
  | nil => intro fs; rfl
  | cons d ds ih =>
    intro fs
    show (((match findEntry fs d with
      | some (Entry.dir _ cs) =>
        if env.failing.contains d then ([], Except.error (Err.copyError d))
        else
          (Event.copyDir d :: (copyDirs env ds (intoStaging fs (Entry.dir d (filterTrees cs)))).1,
            (copyDirs env ds (intoStaging fs (Entry.dir d (filterTrees cs)))).2)
      | some (Entry.file _ _) => ([], Except.error (Err.copyError d))
      | none => copyDirs env ds fs) : List Event × Except Err (List Entry)).1.all
        (fun e => match e with | Event.copyDir _ => true | _ => false)) = true
    cases findEntry fs d with
    | none => exact ih fs
    | some e =>
      cases e with
      | file nm c => rfl
      | dir nm cs =>
        cases hc : env.failing.contains d with
        | true => simp only [hc, if_true]; rfl
        | false =>
          simp only [hc, Bool.false_eq_true, if_false, List.all_cons]
          exact ih (intoStaging fs (Entry.dir d (filterTrees cs)))

theorem copyFiles_events (env : OsEnv) (ns : List String) : ∀ fs,
    ((copyFiles env ns fs).1.all
      (fun e => match e with | Event.copyFile _ => true | _ => false)) = true := by
  induction ns with
  | nil => intro fs; rfl
  | cons n ns ih =>
    intro fs
    show (((match findEntry fs n with
      | some (Entry.file _ c) =>
        if env.failing.contains n then ([], Except.error (Err.fileCopyError n))
        else
          (Event.copyFile n :: (copyFiles env ns (intoStaging fs (Entry.file n c))).1,
            (copyFiles env ns (intoStaging fs (Entry.file n c))).2)
      | some (Entry.dir _ _) => ([], Except.error (Err.fileCopyError n))
      | none => copyFiles env ns fs) : List Event × Except Err (List Entry)).1.all
        (fun e => match e with | Event.copyFile _ => true | _ => false)) = true
    cases findEntry fs n with
    | none => exact ih fs
    | some e =>
      cases e with
      | dir nm cs => rfl
      | file nm c =>
        cases hc : env.failing.contains n with
        | true => simp only [hc, if_true]; rfl
        | false =>
          simp only [hc, Bool.false_eq_true, if_false, List.all_cons]
          exact ih (intoStaging fs (Entry.file n c))

theorem genOne_events (env : OsEnv) (fileName : String) (text : String) (fs : List Entry) :
    ((genOne env fileName text fs).1.all
      (fun e => match e with
        | Event.genFile _ => true
        | Event.chmodFile _ _ => true
        | _ => false)) = true := by
  unfold genOne
  cases hc : env.failing.contains fileName with
  | true => simp only [hc, if_true]; rfl
  | false => simp only [hc, Bool.false_eq_true, if_false]; rfl

theorem generateStage_events (env : OsEnv) (fs : List Entry) :
    ((generateStage env fs).1.all
      (fun e => match e with
        | Event.genFile _ => true
        | Event.chmodFile _ _ => true
        | _ => false)) = true := by
  unfold generateStage
  apply andThen_all _ _ _ (genOne_events env _ _ fs)
  intro fs1
  apply andThen_all _ _ _ (genOne_events env _ _ fs1)
  intro fs2
  apply andThen_all _ _ _ (by rfl)
  intro fs3
  apply andThen_all _ _ _ (genOne_events env _ _ fs3)
  intro fs4
  exact genOne_events env _ _ fs4

theorem archiveStage_cases (env : OsEnv) (fs : List Entry) :
    (∃ err, archiveStage env fs = ([], .error err)) ∨
    (∃ (ents : List (List String × List Nat)) (fs5 : List Entry), archiveStage env fs =
      (.archOpen :: (ents.map (fun e => Event.archWrite e.1) ++ [.archClose]), .ok fs5)) := by
  unfold archiveStage
  cases hc : env.failing.contains zipName with
  | true => exact Or.inl ⟨.archiveError, by simp only [hc, if_true]⟩
  | false =>
    simp only [hc, Bool.false_eq_true, if_false]
    cases hz : releaseChild fs zipName with
    | some e =>
      cases e with
      | dir nm cs => exact Or.inl ⟨.archiveError, rfl⟩
      | file nm c =>
        cases hs : stagingOf fs with
        | none => exact Or.inl ⟨.archiveError, rfl⟩
        | some scs => exact Or.inr ⟨zipEntriesOf scs, _, rfl⟩
    | none =>
      cases hs : stagingOf fs with
      | none => exact Or.inl ⟨.archiveError, rfl⟩
      | some scs => exact Or.inr ⟨zipEntriesOf scs, _, rfl⟩

theorem checksumStage_events (env : OsEnv) (fs : List Entry) :
    ((checksumStage env fs).1.all
      (fun e => isHashEv e || e == Event.writeChecksums)) = true := by
  unfold checksumStage
  cases hc : env.failing.contains "checksums.txt" with
  | true => simp only [hc, if_true]; rfl
  | false =>
    simp only [hc, Bool.false_eq_true, if_false]
    cases hk : releaseChild fs "checksums.txt" with
    | some e =>
      cases e with
      | dir nm cs => rfl
      | file nm c =>
        cases hz : releaseFileContent fs zipName with
        | none => rfl
        | some zb =>
          simp only [List.all_append, Bool.and_eq_true]
          refine ⟨⟨?_, ?_⟩, by rfl⟩ <;>
            exact all_imp _ _ _ (hashPassEvents_all_hash _ zb) (fun e he => by rw [he]; rfl)
    | none =>
      cases hz : releaseFileContent fs zipName with
      | none => rfl
      | some zb =>
        simp only [List.all_append, Bool.and_eq_true]
        refine ⟨⟨?_, ?_⟩, by rfl⟩ <;>
          exact all_imp _ _ _ (hashPassEvents_all_hash _ zb) (fun e he => by rw [he]; rfl)

theorem noHashBeforeClose_of_all (l : List Event)
    (h : l.all (fun e => !isHashEv e) = true) : noHashBeforeClose l = true := by
  induction l with
  | nil => rfl
  | cons e rest ih =>
    rw [List.all_cons, Bool.and_eq_true] at h
    cases e <;> simp_all [noHashBeforeClose, isHashEv]

theorem noHashBeforeClose_append (l1 l2 : List Event)
    (h1 : l1.all (fun e => !isHashEv e) = true) (h2 : noHashBeforeClose l2 = true) :
    noHashBeforeClose (l1 ++ l2) = true := by
  induction l1 with
  | nil => simpa using h2
  | cons e rest ih =>
    rw [List.all_cons, Bool.and_eq_true] at h1
    cases e <;> simp_all [noHashBeforeClose, isHashEv]

theorem noHashBeforeClose_reach (l1 l2 : List Event)
    (h : l1.all (fun e => !isHashEv e) = true) :
    noHashBeforeClose (l1 ++ Event.archClose :: l2) = true := by
  induction l1 with
  | nil => rfl
  | cons e rest ih =>
    rw [List.all_cons, Bool.and_eq_true] at h
    cases e <;> simp_all [noHashBeforeClose, isHashEv]

theorem andThen_fst_ok (a : List Event × Except Err (List Entry))
    (f : List Entry → List Event × Except Err (List Entry)) (fs : List Entry)
    (h : a.2 = .ok fs) : (andThen a f).1 = a.1 ++ (f fs).1 := by
  rw [andThen_fst, h]

theorem andThen_fst_error (a : List Event × Except Err (List Entry))
    (f : List Entry → List Event × Except Err (List Entry)) (err : Err)
    (h : a.2 = .error err) : (andThen a f).1 = a.1 := by
  rw [andThen_fst, h]
  simp

theorem stagingPhase_all_quiet (env : OsEnv) (rootOpt : Option (List Entry)) :
    (stagingPhase env rootOpt).1.all
      (fun e => !isHashEv e && !(e == Event.archClose)) = true := by
  unfold stagingPhase
  apply andThen_all
  · exact all_imp _ _ _ (resetStaging_events _) (fun e he => by
      obtain ⟨a, _, _, b⟩ := resetEv_class e he
      rw [a, b]
      rfl)
  · intro fs1
    apply andThen_all
    · exact all_imp _ _ _ (copyDirs_events env source_dirs fs1) (fun e he => by
        obtain ⟨a, _, _, b⟩ := copyDirEv_class e he
        rw [a, b]
        rfl)
    · intro fs2
      exact all_imp _ _ _ (copyFiles_events env important_files fs2) (fun e he => by
        obtain ⟨a, _, _, b⟩ := copyFileEv_class e he
        rw [a, b]
        rfl)

theorem generateStage_all_quiet (env : OsEnv) (fs3 : List Entry) :
    (generateStage env fs3).1.all
      (fun e => !isHashEv e && !(e == Event.archClose)) = true :=
  all_imp _ _ _ (generateStage_events env fs3) (fun e he => by
    obtain ⟨a, _, b⟩ := genEv_class e he
    rw [a, b]
    rfl)

theorem all_quiet_not_hash (l : List Event)
    (h : l.all (fun e => !isHashEv e && !(e == Event.archClose)) = true) :
    l.all (fun e => !isHashEv e) = true :=
  all_imp _ _ _ h (fun e he => by
    rw [Bool.and_eq_true] at he
    exact he.1)

theorem all_quiet_not_close (l : List Event)
    (h : l.all (fun e => !isHashEv e && !(e == Event.archClose)) = true) :
    l.countP (fun e => e == Event.archClose) = 0 :=
  countP_zero_of_all_not _ _ (all_imp _ _ _ h (fun e he => by
    rw [Bool.and_eq_true] at he
    exact he.2))

theorem checksumStage_countP_close (env : OsEnv) (fs5 : List Entry) :
    (checksumStage env fs5).1.countP (fun e => e == Event.archClose) = 0 :=
  countP_zero_of_all_not _ _ (all_imp _ _ _ (checksumStage_events env fs5)
    (fun e he => by rw [(csEv_class e he).1]; rfl))

/-- C6: in every run, under any injected OS behavior and any project
root, no archive read for hashing precedes the single close of the
archive writer: the trace has no hashing event before its first
`archClose`, and `archClose` occurs at most once. -/
theorem C6_digests_only_after_archive_closed (env : OsEnv) (rootOpt : Option (List Entry)) :
    noHashBeforeClose (create_release_package env rootOpt).1 = true ∧
    (create_release_package env rootOpt).1.countP (fun e => e == Event.archClose) ≤ 1 := by
  have hsp := stagingPhase_all_quiet env rootOpt
  cases h2 : (stagingPhase env rootOpt).2 with
  | error err =>
    have ht : (create_release_package env rootOpt).1 = (stagingPhase env rootOpt).1 :=
      andThen_fst_error _ _ err h2
    rw [ht]
    refine ⟨noHashBeforeClose_of_all _ (all_quiet_not_hash _ hsp), ?_⟩
    rw [all_quiet_not_close _ hsp]
    omega
  | ok fs3 =>
    have ht1 : (create_release_package env rootOpt).1 =
        (stagingPhase env rootOpt).1 ++
          (andThen (generateStage env fs3)
            (fun fs4 => andThen (archiveStage env fs4)
              (fun fs5 => checksumStage env fs5))).1 :=
      andThen_fst_ok _ _ fs3 h2
    have hgen := generateStage_all_quiet env fs3
    cases h3 : (generateStage env fs3).2 with
    | error err =>
      have ht2 : (andThen (generateStage env fs3)
          (fun fs4 => andThen (archiveStage env fs4)
            (fun fs5 => checksumStage env fs5))).1 = (generateStage env fs3).1 :=
        andThen_fst_error _ _ err h3
      rw [ht1, ht2]
      constructor
      · exact noHashBeforeClose_of_all _ (by
          rw [List.all_append, Bool.and_eq_true]
          exact ⟨all_quiet_not_hash _ hsp, all_quiet_not_hash _ hgen⟩)
      · rw [List.countP_append, all_quiet_not_close _ hsp, all_quiet_not_close _ hgen]
        omega
    | ok fs4 =>
      have ht2 : (andThen (generateStage env fs3)
          (fun fs4 => andThen (archiveStage env fs4)
            (fun fs5 => checksumStage env fs5))).1 =
          (generateStage env fs3).1 ++
            (andThen (archiveStage env fs4) (fun fs5 => checksumStage env fs5)).1 :=
        andThen_fst_ok _ _ fs4 h3
      rcases archiveStage_cases env fs4 with ⟨err, harch⟩ | ⟨ents, fs5, harch⟩
      · have harch1 : (archiveStage env fs4).1 = ([] : List Event) := by rw [harch]
        have ht3 : (andThen (archiveStage env fs4) (fun fs5 => checksumStage env fs5)).1 =
            (archiveStage env fs4).1 :=
          andThen_fst_error _ _ err (by rw [harch])
        rw [ht1, ht2, ht3, harch1]
        constructor
        · exact noHashBeforeClose_of_all _ (by
            rw [List.all_append, Bool.and_eq_true, List.all_append, Bool.and_eq_true]
            exact ⟨all_quiet_not_hash _ hsp, all_quiet_not_hash _ hgen, by rfl⟩)
        · rw [List.countP_append, List.countP_append, all_quiet_not_close _ hsp,
            all_quiet_not_close _ hgen]
          simp
      · have harch1 : (archiveStage env fs4).1 =
            Event.archOpen :: (ents.map (fun e => Event.archWrite e.1) ++
              [Event.archClose]) := by
          rw [harch]
        have ht3 : (andThen (archiveStage env fs4) (fun fs5 => checksumStage env fs5)).1 =
            (archiveStage env fs4).1 ++ (checksumStage env fs5).1 :=
          andThen_fst_ok _ _ fs5 (by rw [harch])
        rw [ht1, ht2, ht3, harch1]
        have hmapq : (ents.map (fun e => Event.archWrite e.1)).all
            (fun e => !isHashEv e) = true := by
          rw [List.all_eq_true]
          intro x hx
          obtain ⟨c, _, hc⟩ := List.mem_map.mp hx
          rw [← hc]
          rfl
        constructor
        · have hshape : (stagingPhase env rootOpt).1 ++
              ((generateStage env fs3).1 ++
                ((Event.archOpen :: (ents.map (fun e => Event.archWrite e.1) ++
                   [Event.archClose])) ++ (checksumStage env fs5).1)) =
              ((stagingPhase env rootOpt).1 ++ ((generateStage env fs3).1 ++
                (Event.archOpen :: ents.map (fun e => Event.archWrite e.1)))) ++
              (Event.archClose :: (checksumStage env fs5).1) := by
            simp [List.append_assoc]
          rw [hshape]
          refine noHashBeforeClose_reach _ _ ?_
          rw [List.all_append, Bool.and_eq_true, List.all_append, Bool.and_eq_true,
            List.all_cons, Bool.and_eq_true]
          exact ⟨all_quiet_not_hash _ hsp, all_quiet_not_hash _ hgen, by rfl, hmapq⟩
        · have hz : ents.countP ((fun e => e == Event.archClose) ∘
              (fun e => Event.archWrite e.1)) = 0 := by
            rw [List.countP_eq_zero]
            intro a _
            simp
          rw [List.countP_append, List.countP_append, List.countP_append,
            all_quiet_not_close _ hsp, all_quiet_not_close _ hgen,
            checksumStage_countP_close env fs5,
            List.countP_cons, List.countP_append, List.countP_map, hz]
          simp

mutual

theorem walkFiles_filterTrees : ∀ es : List Entry,
    walkFiles (filterTrees es) =
      (walkFiles es).filter (fun pc => pc.1.all (fun comp => !matchesAny comp))
  | [] => rfl
  | e :: es => by
    have he := walkEntryFiles_filterTree e
    have hes := walkFiles_filterTrees es
    show walkFiles (match filterTree e with
      | some e2 => e2 :: filterTrees es
      | none => filterTrees es) = _
    cases hf : filterTree e with
    | some e2 =>
      rw [hf] at he
      have he2 : walkEntryFiles e2 =
          List.filter (fun pc => pc.1.all fun comp => !matchesAny comp) (walkEntryFiles e) := he
      show walkEntryFiles e2 ++ walkFiles (filterTrees es) = _
      rw [he2, hes]
      show _ = (walkEntryFiles e ++ walkFiles es).filter _
      rw [List.filter_append]
    | none =>
      rw [hf] at he
      have he2 : ([] : List (List String × List Nat)) =
          List.filter (fun pc => pc.1.all fun comp => !matchesAny comp) (walkEntryFiles e) := he
      show walkFiles (filterTrees es) = _
      rw [hes]
      show _ = (walkEntryFiles e ++ walkFiles es).filter _
      rw [List.filter_append, ← he2]
      rfl

theorem walkEntryFiles_filterTree : ∀ e : Entry,
    (match filterTree e with
      | some e2 => walkEntryFiles e2
      | none => []) =
      (walkEntryFiles e).filter (fun pc => pc.1.all (fun comp => !matchesAny comp))
  | .file n c => by
    show (match (if matchesAny n then none else some (Entry.file n c)) with
      | some e2 => walkEntryFiles e2
      | none => []) = _
    cases hm : matchesAny n with
    | true =>
      simp only [hm, if_true]
      show ([] : List (List String × List Nat)) =
        List.filter _ [([n], c)]
      simp [hm]
    | false =>
      simp only [hm, Bool.false_eq_true, if_false]
      show walkEntryFiles (Entry.file n c) = _
      simp [walkEntryFiles, hm]
  | .dir n cs => by
    have hcs := walkFiles_filterTrees cs
    show (match (if matchesAny n then none else some (Entry.dir n (filterTrees cs))) with
      | some e2 => walkEntryFiles e2
      | none => []) = _
    cases hm : matchesAny n with
    | true =>
      simp only [hm, if_true]
      show ([] : List (List String × List Nat)) = _
      rw [eq_comm, List.filter_eq_nil_iff]
      intro pc hpc
      show ¬ _
      unfold walkEntryFiles at hpc
      obtain ⟨q, _, hq⟩ := List.mem_map.mp hpc
      rw [← hq]
      simp [hm]
    | false =>
      simp only [hm, Bool.false_eq_true, if_false]
      show walkEntryFiles (Entry.dir n (filterTrees cs)) = _
      show (walkFiles (filterTrees cs)).map (fun pc => (n :: pc.1, pc.2)) =
        ((walkFiles cs).map (fun pc => (n :: pc.1, pc.2))).filter _
      rw [hcs, List.filter_map]
      congr 1
      apply List.filter_congr
      intro pc _
      show (pc.1.all fun comp => !matchesAny comp) =
        ((n :: pc.1).all fun comp => !matchesAny comp)
      rw [List.all_cons, hm]
      rfl

end

theorem walkEntryFiles_head (e : Entry) (pc : List String × List Nat)
    (h : pc ∈ walkEntryFiles e) : ∃ rest, pc.1 = e.name :: rest := by
  cases e with
  | file n c =>
    have : pc = ([n], c) := by simpa [walkEntryFiles] using h
    exact ⟨[], by rw [this]; rfl⟩
  | dir n cs =>
    unfold walkEntryFiles at h
    obtain ⟨q, _, hq⟩ := List.mem_map.mp h
    exact ⟨q.1, by rw [← hq]; rfl⟩

theorem walkFiles_head (es : List Entry) (pc : List String × List Nat)
    (h : pc ∈ walkFiles es) : ∃ e ∈ es, ∃ rest, pc.1 = e.name :: rest := by
  induction es with
  | nil => simp [walkFiles] at h
  | cons e es ih =>
    rw [show walkFiles (e :: es) = walkEntryFiles e ++ walkFiles es from rfl] at h
    rcases List.mem_append.mp h with h1 | h2
    · obtain ⟨rest, hr⟩ := walkEntryFiles_head e pc h1
      exact ⟨e, List.mem_cons_self e es, rest, hr⟩
    · obtain ⟨x, hx, rest, hr⟩ := ih h2
      exact ⟨x, List.mem_cons_of_mem e hx, rest, hr⟩

mutual

theorem walkFiles_nodup : ∀ es : List Entry, nodupTree es = true →
    ((walkFiles es).map (fun pc => pc.1)).Nodup
  | [], _ => List.nodup_nil
  | e :: es, h => by
    have h' : (!(es.any (fun x => x.name == e.name)) && nodupEntry e && nodupTree es) = true := h
    rw [Bool.and_eq_true, Bool.and_eq_true] at h'
    obtain ⟨⟨hany, hent⟩, hrest⟩ := h'
    have hA := walkEntryFiles_nodup e hent
    have hB := walkFiles_nodup es hrest
    show ((walkEntryFiles e ++ walkFiles es).map (fun pc => pc.1)).Nodup
    rw [List.map_append, List.nodup_append]
    refine ⟨hA, hB, ?_⟩
    intro a ha hb
    obtain ⟨pc1, hpc1, he1⟩ := List.mem_map.mp ha
    obtain ⟨pc2, hpc2, he2⟩ := List.mem_map.mp hb
    obtain ⟨r1, hr1⟩ := walkEntryFiles_head e pc1 hpc1
    obtain ⟨x, hx, r2, hr2⟩ := walkFiles_head es pc2 hpc2
    have hheads : (e.name :: r1 : List String) = x.name :: r2 := by
      rw [← hr1, he1, ← he2, hr2]
    have hxe : x.name = e.name := by
      have := congrArg List.head? hheads
      simp at this
      exact this.symm
    have hany2 : es.any (fun y => y.name == e.name) = true :=
      List.any_eq_true.mpr ⟨x, hx, by rw [hxe]; exact beq_self_eq_true _⟩
    rw [hany2] at hany
    simp at hany

theorem walkEntryFiles_nodup : ∀ e : Entry, nodupEntry e = true →
    ((walkEntryFiles e).map (fun pc => pc.1)).Nodup
  | .file n c, _ => by simp [walkEntryFiles]
  | .dir n cs, h => by
    have hcs := walkFiles_nodup cs h
    show (((walkFiles cs).map (fun pc => (n :: pc.1, pc.2))).map (fun pc => pc.1)).Nodup
    rw [List.map_map]
    have : ((fun pc => pc.1) ∘ (fun (pc : List String × List Nat) => (n :: pc.1, pc.2))) =
        (fun pc => n :: pc.1) := rfl
    rw [this]
    have : (fun (pc : List String × List Nat) => n :: pc.1) =
        ((fun l => n :: l) ∘ (fun pc => pc.1)) := rfl
    rw [this, ← List.map_map]
    exact hcs.map (fun a b hab => by simpa using hab)

end

theorem filterTree_name (e e2 : Entry) (h : filterTree e = some e2) : e2.name = e.name := by
  cases e with
  | file n c =>
    unfold filterTree at h
    cases hm : matchesAny n with
    | true => rw [hm] at h; simp at h
    | false =>
      rw [hm] at h
      simp only [Bool.false_eq_true, if_false, Option.some.injEq] at h
      rw [← h]
  | dir n cs =>
    unfold filterTree at h
    cases hm : matchesAny n with
    | true => rw [hm] at h; simp at h
    | false =>
      rw [hm] at h
      simp only [Bool.false_eq_true, if_false, Option.some.injEq] at h
      rw [← h]
      rfl

theorem mem_filterTrees (es : List Entry) (x : Entry) (h : x ∈ filterTrees es) :
    ∃ y ∈ es, filterTree y = some x := by
  induction es with
  | nil => simp [filterTrees] at h
  | cons e es ih =>
    have h2 : x ∈ (match filterTree e with
      | some e2 => e2 :: filterTrees es
      | none => filterTrees es) := h
    clear h
    rename' h2 => h
    cases hf : filterTree e with
    | some e2 =>
      rw [hf] at h
      rcases List.mem_cons.mp h with h1 | h2
      · exact ⟨e, List.mem_cons_self e es, by rw [hf, h1]⟩
      · obtain ⟨y, hy, hfy⟩ := ih h2
        exact ⟨y, List.mem_cons_of_mem e hy, hfy⟩
    | none =>
      rw [hf] at h
      obtain ⟨y, hy, hfy⟩ := ih h
      exact ⟨y, List.mem_cons_of_mem e hy, hfy⟩

mutual

theorem nodupTree_filterTrees : ∀ es : List Entry, nodupTree es = true →
    nodupTree (filterTrees es) = true
  | [], _ => rfl
  | e :: es, h => by
    have h' : (!(es.any (fun x => x.name == e.name)) && nodupEntry e && nodupTree es) = true := h
    rw [Bool.and_eq_true, Bool.and_eq_true] at h'
    obtain ⟨⟨hany, hent⟩, hrest⟩ := h'
    have hrec := nodupTree_filterTrees es hrest
    show nodupTree (match filterTree e with
      | some e2 => e2 :: filterTrees es
      | none => filterTrees es) = true
    cases hf : filterTree e with
    | none => exact hrec
    | some e2 =>
      show (!((filterTrees es).any (fun x => x.name == e2.name)) && nodupEntry e2 &&
        nodupTree (filterTrees es)) = true
      rw [Bool.and_eq_true, Bool.and_eq_true]
      refine ⟨⟨?_, nodupEntry_filterTree e e2 hent hf⟩, hrec⟩
      rw [Bool.not_eq_eq_eq_not, Bool.not_true, List.any_eq_false]
      intro x hx
      obtain ⟨y, hy, hfy⟩ := mem_filterTrees es x hx
      have hxy : x.name = y.name := filterTree_name y x hfy
      have he2 : e2.name = e.name := filterTree_name e e2 hf
      rw [hxy, he2]
      intro hc
      have : es.any (fun z => z.name == e.name) = true :=
        List.any_eq_true.mpr ⟨y, hy, hc⟩
      rw [this] at hany
      simp at hany

theorem nodupEntry_filterTree : ∀ e e2 : Entry, nodupEntry e = true →
    filterTree e = some e2 → nodupEntry e2 = true
  | .file n c, e2, _, h => by
    unfold filterTree at h
    cases hm : matchesAny n with
    | true => rw [hm] at h; simp at h
    | false =>
      rw [hm] at h
      simp only [Bool.false_eq_true, if_false, Option.some.injEq] at h
      rw [← h]
      rfl
  | .dir n cs, e2, hn, h => by
    unfold filterTree at h
    cases hm : matchesAny n with
    | true => rw [hm] at h; simp at h
    | false =>
      rw [hm] at h
      simp only [Bool.false_eq_true, if_false, Option.some.injEq] at h
      rw [← h]
      show nodupTree (filterTrees cs) = true
      exact nodupTree_filterTrees cs hn

end

theorem nodupTree_iff (es : List Entry) :
    nodupTree es = true ↔ (namesOf es).Nodup ∧ ∀ e ∈ es, nodupEntry e = true := by
  induction es with
  | nil => simp [nodupTree, namesOf]
  | cons e es ih =>
    show (!(es.any (fun x => x.name == e.name)) && nodupEntry e && nodupTree es) = true ↔ _
    rw [Bool.and_eq_true, Bool.and_eq_true, ih]
    constructor
    · rintro ⟨⟨hany, hent⟩, hnames, hall⟩
      rw [Bool.not_eq_eq_eq_not, Bool.not_true, List.any_eq_false] at hany
      refine ⟨?_, ?_⟩
      · show (e.name :: namesOf es).Nodup
        rw [List.nodup_cons]
        refine ⟨?_, hnames⟩
        intro hmem
        obtain ⟨x, hx, hxn⟩ := List.mem_map.mp hmem
        exact (hany x hx) (by rw [hxn]; exact beq_self_eq_true _)
      · intro y hy
        rcases List.mem_cons.mp hy with h1 | h2
        · rw [h1]; exact hent
        · exact hall y h2
    · rintro ⟨hnames, hall⟩
      have hn2 : (e.name :: namesOf es).Nodup := hnames
      rw [List.nodup_cons] at hn2
      refine ⟨⟨?_, hall e (List.mem_cons_self e es)⟩,
        hn2.2, fun y hy => hall y (List.mem_cons_of_mem e hy)⟩
      rw [Bool.not_eq_eq_eq_not, Bool.not_true, List.any_eq_false]
      intro x hx hc
      exact hn2.1 (List.mem_map.mpr ⟨x, hx, eq_of_beq hc⟩)

theorem namesOf_dirEnts (ds : List String) (fs : List Entry) :
    namesOf (dirEnts ds fs) = ds.filter (fun d => (getDirChildren fs d).isSome) := by
  induction ds with
  | nil => rfl
  | cons d ds ih =>
    rw [List.filter_cons]
    cases ho : getDirChildren fs d with
    | none =>
      unfold dirEnts
      rw [List.filterMap_cons, ho]
      simp only [Option.map_none, Option.isSome_none, Bool.false_eq_true, if_false]
      exact ih
    | some cs =>
      unfold dirEnts
      rw [List.filterMap_cons, ho]
      simp only [Option.map_some, Option.isSome_some, if_true]
      show (Entry.dir d (filterTrees cs)).name :: namesOf (dirEnts ds fs) = _
      rw [ih]
      rfl

theorem namesOf_fileEnts (ns : List String) (fs : List Entry) :
    namesOf (fileEnts ns fs) = ns.filter (fun n => (getFileContent fs n).isSome) := by
  induction ns with
  | nil => rfl
  | cons n ns ih =>
    rw [List.filter_cons]
    cases ho : getFileContent fs n with
    | none =>
      unfold fileEnts
      rw [List.filterMap_cons, ho]
      simp only [Option.map_none, Option.isSome_none, Bool.false_eq_true, if_false]
      exact ih
    | some c =>
      unfold fileEnts
      rw [List.filterMap_cons, ho]
      simp only [Option.map_some, Option.isSome_some, if_true]
      show (Entry.file n c).name :: namesOf (fileEnts ns fs) = _
      rw [ih]
      rfl

theorem mem_dirEnts (ds : List String) (fs : List Entry) (x : Entry)
    (h : x ∈ dirEnts ds fs) :
    ∃ d ∈ ds, ∃ cs, getDirChildren fs d = some cs ∧ x = Entry.dir d (filterTrees cs) := by
  unfold dirEnts at h
  obtain ⟨d, hd, hf⟩ := List.mem_filterMap.mp h
  cases ho : getDirChildren fs d with
  | none => rw [ho] at hf; simp at hf
  | some cs =>
    rw [ho] at hf
    simp only [Option.map] at hf
    rw [Option.some.injEq] at hf
    exact ⟨d, hd, cs, ho, hf.symm⟩

theorem mem_fileEnts (ns : List String) (fs : List Entry) (x : Entry)
    (h : x ∈ fileEnts ns fs) :
    ∃ n ∈ ns, ∃ c, getFileContent fs n = some c ∧ x = Entry.file n c := by
  unfold fileEnts at h
  obtain ⟨n, hn, hf⟩ := List.mem_filterMap.mp h
  cases ho : getFileContent fs n with
  | none => rw [ho] at hf; simp at hf
  | some c =>
    rw [ho] at hf
    simp only [Option.map] at hf
    rw [Option.some.injEq] at hf
    exact ⟨n, hn, c, ho, hf.symm⟩

theorem nodupTree_children (fs : List Entry) (d nm : String) (cs : List Entry)
    (h : nodupTree fs = true) (hf : findEntry fs d = some (.dir nm cs)) :
    nodupTree cs = true := by
  have hmem := (findEntry_mem fs d _ hf).1
  have := ((nodupTree_iff fs).mp h).2 _ hmem
  exact this

theorem nodupTree_fullStaging (fs : List Entry) (h : nodupTree fs = true) :
    nodupTree (fullStaging fs) = true := by
  rw [nodupTree_iff]
  constructor
  · unfold fullStaging copiedStaging
    rw [namesOf, List.map_append, List.map_append, ← namesOf, ← namesOf, ← namesOf,
      namesOf_dirEnts, namesOf_fileEnts]
    have hgen : namesOf generatedEntries =
        ["build_windows.bat", "build_unix.sh", "INSTALL.md", "VERSION.txt"] := rfl
    rw [hgen]
    rw [List.nodup_append, List.nodup_append]
    refine ⟨⟨(by decide : source_dirs.Nodup).filter _,
      (by decide : important_files.Nodup).filter _, ?_⟩, by decide, ?_⟩
    · intro a ha hb
      have ha2 := List.mem_of_mem_filter ha
      have hb2 := List.mem_of_mem_filter hb
      have : ∀ s ∈ source_dirs, s ∉ important_files := by decide
      exact this a ha2 hb2
    · intro a ha hb
      rcases List.mem_append.mp ha with h1 | h2
      · have h1b := List.mem_of_mem_filter h1
        have : ∀ s ∈ source_dirs,
            s ∉ (["build_windows.bat", "build_unix.sh", "INSTALL.md", "VERSION.txt"] :
              List String) := by decide
        exact this a h1b hb
      · have h2b := List.mem_of_mem_filter h2
        have : ∀ s ∈ important_files,
            s ∉ (["build_windows.bat", "build_unix.sh", "INSTALL.md", "VERSION.txt"] :
              List String) := by decide
        exact this a h2b hb
  · intro e he
    unfold fullStaging copiedStaging at he
    rcases List.mem_append.mp he with h1 | h2
    · rcases List.mem_append.mp h1 with h3 | h4
      · obtain ⟨d, _, cs, ho, hx⟩ := mem_dirEnts source_dirs fs e h3
        rw [hx]
        show nodupTree (filterTrees cs) = true
        unfold getDirChildren at ho
        cases hfe : findEntry fs d with
        | none => rw [hfe] at ho; simp at ho
        | some x =>
          rw [hfe] at ho
          cases x with
          | file a b => simp at ho
          | dir a cs2 =>
            rw [Option.some.injEq] at ho
            subst ho
            exact nodupTree_filterTrees cs2 (nodupTree_children fs d a cs2 h hfe)
      · obtain ⟨n, _, c, _, hx⟩ := mem_fileEnts important_files fs e h4
        rw [hx]
        rfl
    · simp only [generatedEntries, List.mem_cons, List.not_mem_nil, or_false] at h2
      rcases h2 with rfl | rfl | rfl | rfl <;> rfl

theorem chunksGo_foldl (fuel : List Nat) : ∀ (bs : List Nat) (a : Nat),
    bs.length ≤ fuel.length →
    (chunksGo fuel bs).foldl hashUpdate a = bs.foldl hashStep a := by
  induction fuel with
  | nil =>
    intro bs a h
    cases bs with
    | nil => rfl
    | cons b bs => simp at h
  | cons f fs ih =>
    intro bs a h
    cases bs with
    | nil => rfl
    | cons b bs =>
      show ((((b :: bs).take 4096) :: chunksGo fs ((b :: bs).drop 4096)).foldl
        hashUpdate a) = _
      rw [List.foldl_cons]
      have hlen : ((b :: bs).drop 4096).length ≤ fs.length := by
        rw [List.length_drop]
        simp only [List.length_cons] at h ⊢
        omega
      rw [ih ((b :: bs).drop 4096) (hashUpdate a ((b :: bs).take 4096)) hlen]
      show ((b :: bs).drop 4096).foldl hashStep (((b :: bs).take 4096).foldl hashStep a) = _
      rw [← List.foldl_append, List.take_append_drop]

theorem chunks4096_foldl (bs : List Nat) (a : Nat) :
    (chunks4096 bs).foldl hashUpdate a = bs.foldl hashStep a :=
  chunksGo_foldl bs bs a (le_refl _)

theorem get_file_hash_eq (bs : List Nat) (alg : String) :
    get_file_hash bs alg = hexdigest alg (bs.foldl hashStep (hashInit alg)) := by
  unfold get_file_hash
  rw [chunks4096_foldl]

theorem chunksGo_sizes (fuel : List Nat) : ∀ (bs : List Nat) (c : List Nat),
    c ∈ chunksGo fuel bs → c.length ≤ 4096 := by
  induction fuel with
  | nil =>
    intro bs c h
    cases bs with
    | nil => simp [chunksGo] at h
    | cons b bs => simp [chunksGo] at h
  | cons f fs ih =>
    intro bs c h
    cases bs with
    | nil => simp [chunksGo] at h
    | cons b bs =>
      have h2 : c ∈ ((b :: bs).take 4096) :: chunksGo fs ((b :: bs).drop 4096) := h
      rcases List.mem_cons.mp h2 with h3 | h3
      · rw [h3, List.length_take]
        omega
      · exact ih _ c h3

theorem chunks4096_sizes (bs c : List Nat) (h : c ∈ chunks4096 bs) : c.length ≤ 4096 :=
  chunksGo_sizes bs bs c h

theorem toHexPad_length (w : Nat) : ∀ n, (toHexPad w n).length = w := by
  induction w with
  | zero => intro n; rfl
  | succ w ih =>
    intro n
    show (toHexPad w (n / 16) ++ [hexDigitChar (n % 16)]).length = w + 1
    rw [List.length_append, ih]
    rfl

theorem hexDigitChar_facts : ∀ k, k < 16 →
    (lowerHexChars.contains (hexDigitChar k)) = true ∧
    ((hexDigitChar k) == '\n') = false := by decide

theorem toHexPad_chars (w : Nat) : ∀ n c, c ∈ toHexPad w n →
    (lowerHexChars.contains c) = true ∧ ((c == '\n')) = false := by
  induction w with
  | zero => intro n c h; simp [toHexPad] at h
  | succ w ih =>
    intro n c h
    have h2 : c ∈ toHexPad w (n / 16) ++ [hexDigitChar (n % 16)] := h
    rcases List.mem_append.mp h2 with h3 | h3
    · exact ih (n / 16) c h3
    · have : c = hexDigitChar (n % 16) := by simpa using h3
      rw [this]
      exact hexDigitChar_facts (n % 16) (Nat.mod_lt n (by omega))

theorem get_file_hash_length (bs : List Nat) (alg : String) :
    (get_file_hash bs alg).length = hexLen alg := by
  unfold get_file_hash hexdigest
  show (String.mk (toHexPad (hexLen alg) _)).length = hexLen alg
  show (toHexPad (hexLen alg) _).length = hexLen alg
  rw [toHexPad_length]

theorem get_file_hash_chars (bs : List Nat) (alg : String) :
    ∀ c ∈ (get_file_hash bs alg).data,
      (lowerHexChars.contains c) = true ∧ ((c == '\n')) = false := by
  unfold get_file_hash hexdigest
  intro c hc
  exact toHexPad_chars (hexLen alg) _ c hc

theorem str_data_append (s t : String) : (s ++ t).data = s.data ++ t.data := by
  cases s
  cases t
  rfl

theorem str_mk_data_append (s t : String) : String.mk (s.data ++ t.data) = s ++ t := by
  cases s
  cases t
  rfl

theorem splitNl_ne_nil (cs : List Char) : splitNl cs ≠ [] := by
  cases cs with
  | nil => simp [splitNl]
  | cons c cs =>
    show (match splitNl cs with
      | [] => []
      | l :: ls => if c == '\n' then [] :: l :: ls else (c :: l) :: ls) ≠ []
    cases h : splitNl cs with
    | nil => exact absurd h (splitNl_ne_nil cs)
    | cons l ls =>
      cases hc : c == '\n' <;> simp

theorem splitNl_split (xs : List Char) : ∀ ys, (∀ c ∈ xs, (c == '\n') = false) →
    splitNl (xs ++ '\n' :: ys) = xs :: splitNl ys := by
  induction xs with
  | nil =>
    intro ys _
    show (match splitNl ys with
      | [] => []
      | l :: ls => if ('\n' == '\n') then [] :: l :: ls else ('\n' :: l) :: ls) = [] :: splitNl ys
    cases h : splitNl ys with
    | nil => exact absurd h (splitNl_ne_nil ys)
    | cons l ls => simp
  | cons x xs ih =>
    intro ys hx
    have hxn : (x == '\n') = false := hx x (List.mem_cons_self x xs)
    have hrec := ih ys (fun c hc => hx c (List.mem_cons_of_mem x hc))
    show (match splitNl (xs ++ '\n' :: ys) with
      | [] => []
      | l :: ls => if (x == '\n') then [] :: l :: ls else (x :: l) :: ls) =
      (x :: xs) :: splitNl ys
    rw [hrec, hxn]
    simp

theorem splitNl_newline_cons (ys : List Char) : splitNl ('\n' :: ys) = [] :: splitNl ys := by
  show (match splitNl ys with
    | [] => []
    | l :: ls => if ('\n' == '\n') then [] :: l :: ls else ('\n' :: l) :: ls) = [] :: splitNl ys
  cases h : splitNl ys with
  | nil => exact absurd h (splitNl_ne_nil ys)
  | cons l ls => simp

theorem str_mk_data (s : String) : String.mk s.data = s := by
  cases s
  rfl

theorem linesOf_checksumsText (s m : String)
    (hs : ∀ c ∈ s.data, (c == '\n') = false)
    (hm : ∀ c ∈ m.data, (c == '\n') = false) :
    linesOf (checksumsText s m) =
      ["TinaKit v1.0.0 Checksums", "========================", "",
       "File: tinakit-v1.0.0.zip", "SHA256: " ++ s, "MD5:    " ++ m, ""] := by
  have e1 : ("TinaKit v1.0.0 Checksums\n" : String).data =
      "TinaKit v1.0.0 Checksums".data ++ '\n' :: [] := by decide
  have e2 : ("========================\n\n" : String).data =
      "========================".data ++ '\n' :: '\n' :: [] := by decide
  have e3 : ("File: tinakit-v1.0.0.zip\n" : String).data =
      "File: tinakit-v1.0.0.zip".data ++ '\n' :: [] := by decide
  have e4 : ("\n" : String).data = '\n' :: [] := by decide
  have hdata : (checksumsText s m).data =
      "TinaKit v1.0.0 Checksums".data ++ '\n' ::
        ("========================".data ++ '\n' ::
          ('\n' ::
            ("File: tinakit-v1.0.0.zip".data ++ '\n' ::
              (("SHA256: ".data ++ s.data) ++ '\n' ::
                (("MD5:    ".data ++ m.data) ++ '\n' :: []))))) := by
    show ("TinaKit v1.0.0 Checksums\n" ++ "========================\n\n" ++
      "File: tinakit-v1.0.0.zip\n" ++ "SHA256: " ++ s ++ "\n" ++ "MD5:    " ++ m ++
      "\n").data = _
    rw [str_data_append, str_data_append, str_data_append, str_data_append,
      str_data_append, str_data_append, str_data_append, str_data_append,
      e1, e2, e3, e4]
    simp [List.append_assoc]
  unfold linesOf
  rw [hdata]
  have d1 : ∀ c ∈ ("TinaKit v1.0.0 Checksums" : String).data, (c == '\n') = false := by decide
  have d2 : ∀ c ∈ ("========================" : String).data, (c == '\n') = false := by decide
  have d3 : ∀ c ∈ ("File: tinakit-v1.0.0.zip" : String).data, (c == '\n') = false := by decide
  have d4 : ∀ c ∈ ("SHA256: " : String).data, (c == '\n') = false := by decide
  have d5 : ∀ c ∈ ("MD5:    " : String).data, (c == '\n') = false := by decide
  rw [splitNl_split _ _ d1, splitNl_split _ _ d2, splitNl_newline_cons,
    splitNl_split _ _ d3,
    splitNl_split _ _ (fun c hc => by
      rcases List.mem_append.mp hc with h1 | h2
      · exact d4 c h1
      · exact hs c h2),
    splitNl_split _ _ (fun c hc => by
      rcases List.mem_append.mp hc with h1 | h2
      · exact d5 c h1
      · exact hm c h2)]
  show ([_, _, _, _, _, _, []].map String.mk) = _
  simp only [List.map_cons, List.map_nil]
  rw [str_mk_data, str_mk_data, str_mk_data, str_mk_data_append, str_mk_data_append]

theorem decode_encode (s : String) : decodeStr (encodeStr s) = s := by
  unfold decodeStr encodeStr
  cases s
  rw [List.map_map]
  show String.mk (List.map (Char.ofNat ∘ Char.toNat) _) = _
  have : (Char.ofNat ∘ Char.toNat) = id := by
    funext c
    exact Char.ofNat_toNat c
  rw [this, List.map_id]

theorem getFileContent_inv (fs : List Entry) (n : String) (c : List Nat)
    (h : getFileContent fs n = some c) : ∃ nm, findEntry fs n = some (.file nm c) := by
  unfold getFileContent at h
  cases hf : findEntry fs n with
  | none => rw [hf] at h; simp at h
  | some e =>
    rw [hf] at h
    cases e with
    | dir nm cs => simp at h
    | file nm c2 => rw [Option.some.injEq] at h; exact ⟨nm, by rw [h]⟩

theorem findEntry_fileEnts (ns : List String) (fs : List Entry) (n : String) (c : List Nat) :
    n ∈ ns → getFileContent fs n = some c →
    findEntry (fileEnts ns fs) n = some (.file n c) := by
  induction ns with
  | nil => intro hn _; simp at hn
  | cons m ms ih =>
    intro hn hc
    by_cases hmn : m = n
    · subst hmn
      unfold fileEnts
      rw [List.filterMap_cons, hc]
      simp only [Option.map]
      rw [findEntry_cons]
      simp [Entry.name]
    · unfold fileEnts
      rw [List.filterMap_cons]
      have hn2 : n ∈ ms := by
        rcases List.mem_cons.mp hn with h1 | h2
        · exact absurd h1.symm hmn
        · exact h2
      cases ho : getFileContent fs m with
      | none => exact ih hn2 hc
      | some c2 =>
        simp only [Option.map]
        rw [findEntry_cons]
        have : ((Entry.file m c2).name == n) = false := by
          simp only [Entry.name, beq_eq_false_iff_ne]
          exact hmn
        rw [this]
        simp only [Bool.false_eq_true, if_false]
        exact ih hn2 hc

theorem stagingPhase_spec (fs : List Entry) (h : wfInput fs = true) :
    ∃ evs fs3, stagingPhase cleanEnv (some fs) = (evs, .ok fs3) ∧
      stagingOf fs3 = some (copiedStaging fs) ∧
      (∀ n, n ≠ "release" → findEntry fs3 n = findEntry fs n) := by
  simp only [wfInput, Bool.and_eq_true] at h
  obtain ⟨⟨hA, hB⟩, hC⟩ := h
  have hBe : ∀ d ∈ source_dirs, isFileEntry fs d = false := by
    intro d hd
    have := List.all_eq_true.mp hB d hd
    simpa using this
  have hCe : ∀ n ∈ important_files, isDirEntry fs n = false := by
    intro n hn
    have := List.all_eq_true.mp hC n hn
    simpa using this
  obtain ⟨evs1, fs1, hr1, hst1, hp1, hrc1, he1⟩ := resetStaging_spec fs hA
  have hsd_rel : ∀ d ∈ source_dirs, d ≠ "release" := by decide
  have hif_rel : ∀ n ∈ important_files, n ≠ "release" := by decide
  obtain ⟨evs2, fs2, hr2, hst2, hp2, hrc2, he2⟩ :=
    copyDirs_spec source_dirs fs1 [] hst1 hsd_rel
      (fun d hd => by
        rw [isFileEntry_congr fs1 fs d (hp1 d (hsd_rel d hd))]
        exact hBe d hd)
      (fun d _ x hx => absurd hx (List.not_mem_nil x))
      (by decide)
  have hde1 : dirEnts source_dirs fs1 = dirEnts source_dirs fs :=
    dirEnts_congr source_dirs fs1 fs (fun d hd => hp1 d (hsd_rel d hd))
  rw [List.nil_append, hde1] at hst2
  obtain ⟨evs3, fs3, hr3, hst3, hp3, hrc3, he3⟩ :=
    copyFiles_spec important_files fs2 (dirEnts source_dirs fs) hst2 hif_rel
      (fun n hn => by
        rw [isDirEntry_congr fs2 fs1 n (hp2 n (hif_rel n hn)),
          isDirEntry_congr fs1 fs n (hp1 n (hif_rel n hn))]
        exact hCe n hn)
      (fun n hn x hx => by
        have hx2 := mem_dirEnts_name source_dirs fs x hx
        have hdisj : ∀ s ∈ source_dirs, s ∉ important_files := by decide
        intro hc
        exact hdisj x.name hx2 (hc ▸ hn))
      (by decide)
  have hfe1 : fileEnts important_files fs2 = fileEnts important_files fs := by
    rw [fileEnts_congr important_files fs2 fs1 (fun n hn => hp2 n (hif_rel n hn)),
      fileEnts_congr important_files fs1 fs (fun n hn => hp1 n (hif_rel n hn))]
  rw [hfe1] at hst3
  have hcf : andThen (copyDirs cleanEnv source_dirs fs1)
      (fun fs2 => copyFiles cleanEnv important_files fs2) = (evs2 ++ evs3, .ok fs3) :=
    andThen_ok2 _ _ _ fs2 _ _ hr2 hr3
  refine ⟨evs1 ++ (evs2 ++ evs3), fs3, ?_, hst3, ?_⟩
  · exact andThen_ok2 (resetStaging ((some fs).getD []))
      (fun fs1 => andThen (copyDirs cleanEnv source_dirs fs1)
        (fun fs2 => copyFiles cleanEnv important_files fs2)) _ fs1 _ _ hr1 hcf
  · intro n hn
    rw [hp3 n hn, hp2 n hn, hp1 n hn]

set_option maxRecDepth 16384

/-- C1 counterexample: on a run whose computed project root does not
exist, the pipeline does not fail — it completes successfully — and it
mutates the filesystem (the staging directory is created).  No
`PathError` exists anywhere in the script, so the claimed "fails with a
PathError ... before any mutation" is false. -/
theorem C1_no_patherror_counterexample :
    ((create_release_package cleanEnv none).2.isOk = true) ∧
    Event.mkStaging ∈ (create_release_package cleanEnv none).1 ∧
    isMutationEvent Event.mkStaging = true := by
  decide

/-- C1 amended: the script never checks that the computed project root
exists and defines no `PathError`.  A run on a missing project root
behaves exactly like a run on an empty root — `exists()` probes all fail
and `mkdir(parents=True)` creates the missing ancestors — so the pipeline
mutates the filesystem (creates the staging tree), completes
successfully, and produces a release containing only the four generated
artifacts. -/
theorem C1_missing_root_proceeds (env : OsEnv) :
    create_release_package env none = create_release_package env (some []) ∧
    ((create_release_package cleanEnv none).2.isOk = true) ∧
    Event.mkStaging ∈ (create_release_package cleanEnv none).1 ∧
    (match (create_release_package cleanEnv none).2 with
      | .ok st => (stagingOf st).map namesOf
      | .error _ => none) =
      some ["build_windows.bat", "build_unix.sh", "INSTALL.md", "VERSION.txt"] := by
  exact ⟨rfl, by decide, by decide, by decide⟩

/-- C2 counterexample: a run in which the copy of `include/` raises an
`OSError` terminates with exit status 1, not success — the exception
propagates out of `create_release_package` uncaught (there is no
try/except in the script's call chain), and the interpreter maps it to a
non-zero exit status. -/
theorem C2_exit_status_counterexample :
    mainExitCode ⟨["include"]⟩ (some [Entry.dir "include" []]) = 1 ∧
    (match (create_release_package ⟨["include"]⟩ (some [Entry.dir "include" []])).2 with
      | .error e => some e
      | .ok _ => none) = some (Err.copyError "include") ∧
    (1 : Nat) ≠ 0 := by
  decide

/-- C2 amended: the process exit status is 0 exactly when the whole
pipeline ran to completion; any internal stage failure propagates as an
uncaught exception and the process exits with status 1.  (The only text-
only error reporting in the file sits in the `run_command` helper, which
`create_release_package` never calls.) -/
theorem C2_exit_status_reflects_success (env : OsEnv) (rootOpt : Option (List Entry)) :
    (mainExitCode env rootOpt = 0 ↔ (create_release_package env rootOpt).2.isOk = true) ∧
    (mainExitCode env rootOpt = 0 ∨ mainExitCode env rootOpt = 1) := by
  unfold mainExitCode
  cases h : (create_release_package env rootOpt).2 with
  | ok st => simp [Except.isOk, Except.toBool]
  | error e => simp [Except.isOk, Except.toBool]

/-- C3 counterexample: in the checksum stage of a completed run the
archive is opened for hashing twice — once per algorithm — not once:
`get_file_hash` is called separately for 'sha256' and for 'md5', and
each call re-opens and re-reads the archive.  The claimed single shared
pass (exactly one open) is false. -/
theorem C3_single_pass_counterexample :
    ((create_release_package cleanEnv (some exampleRoot)).1.countP isHashOpen = 2) ∧
    ¬((create_release_package cleanEnv (some exampleRoot)).1.countP isHashOpen = 1) := by
  have h2 : ((create_release_package cleanEnv (some exampleRoot)).1.countP isHashOpen = 2) := by
    decide
  refine ⟨h2, fun h => ?_⟩
  rw [h2] at h
  exact absurd h (by decide)

/-- C3 amended: the checksum stage computes the two digests in two
separate passes over the completed archive, one per algorithm (the trace
holds exactly two hash-open events); each pass streams the file in
chunks of at most 4096 bytes, and folding the digest state over the
chunk stream equals folding it over the whole byte stream, so each
digest is over the archive's full contents. -/
theorem C3_two_passes_chunked (fs : List Entry) (h : wfInput fs = true) :
    ((create_release_package cleanEnv (some fs)).1.countP isHashOpen = 2) ∧
    (∀ bs a, (chunks4096 bs).foldl hashUpdate a = bs.foldl hashStep a) ∧
    (∀ bs alg, get_file_hash bs alg = hexdigest alg (bs.foldl hashStep (hashInit alg))) ∧
    (∀ bs c, c ∈ chunks4096 bs → c.length ≤ 4096) := by
  obtain ⟨evs, st, hrun, _, _, _, _, hcount, _⟩ := run_clean_spec fs h
  have htr : (create_release_package cleanEnv (some fs)).1 = evs := by rw [hrun]
  rw [htr]
  exact ⟨hcount, fun bs a => chunks4096_foldl bs a,
    fun bs alg => get_file_hash_eq bs alg,
    fun bs c hc => chunks4096_sizes bs c hc⟩

/-- C3 witness: the amended statement holds at the walkthrough scenario
root. -/
theorem C3_two_passes_chunked_witness :
    wfInput exampleRoot = true ∧
    (((create_release_package cleanEnv (some exampleRoot)).1.countP isHashOpen = 2) ∧
    (∀ bs a, (chunks4096 bs).foldl hashUpdate a = bs.foldl hashStep a) ∧
    (∀ bs alg, get_file_hash bs alg = hexdigest alg (bs.foldl hashStep (hashInit alg))) ∧
    (∀ bs c, c ∈ chunks4096 bs → c.length ≤ 4096)) :=
  ⟨by decide, C3_two_passes_chunked exampleRoot (by decide)⟩

/-- C4: for every completed clean run on a well-formed duplicate-free
project root, the staging tree the run leaves behind is the tree the
archive was built from; the archive's entry list is exactly the map
`path ↦ releaseName :: path` over the staging tree's regular files
(paths computed relative to the staging tree's parent); both path lists
are duplicate-free, so the correspondence is a bijection with no staged
file omitted and no entry lacking a staged source; and every entry path
is prefixed with the release name. -/
theorem C4_archive_staging_bijection (fs st : List Entry)
    (h1 : wfInput fs = true) (h2 : nodupTree fs = true)
    (h3 : (create_release_package cleanEnv (some fs)).2 = .ok st) :
    ∃ scs, stagingOf st = some scs ∧
      releaseFileContent st zipName = some (zipBytes (zipEntriesOf scs)) ∧
      zipEntriesOf scs = (walkFiles scs).map (fun pc => (releaseName :: pc.1, pc.2)) ∧
      ((walkFiles scs).map (fun pc => pc.1)).Nodup ∧
      ((zipEntriesOf scs).map (fun e => e.1)).Nodup ∧
      (∀ e ∈ zipEntriesOf scs, e.1.head? = some releaseName) := by
  obtain ⟨evs, st2, hrun, hstag, hzip, _, _, _, _⟩ := run_clean_spec fs h1
  have hst2 : (create_release_package cleanEnv (some fs)).2 = .ok st2 := by rw [hrun]
  rw [hst2] at h3
  injection h3 with h3
  subst h3
  have hwn : ((walkFiles (fullStaging fs)).map (fun pc => pc.1)).Nodup :=
    walkFiles_nodup _ (nodupTree_fullStaging fs h2)
  refine ⟨fullStaging fs, hstag, hzip, rfl, hwn, ?_, ?_⟩
  · unfold zipEntriesOf
    rw [List.map_map]
    have hc1 : ((fun e => e.1) ∘
        (fun pc : List String × List Nat => (releaseName :: pc.1, pc.2))) =
        (fun pc : List String × List Nat => releaseName :: pc.1) := rfl
    rw [hc1]
    have hc2 : (fun pc : List String × List Nat => releaseName :: pc.1) =
        ((fun l => releaseName :: l) ∘ (fun pc : List String × List Nat => pc.1)) := rfl
    rw [hc2, ← List.map_map]
    exact hwn.map (fun a b hab => by simpa using hab)
  · intro e he
    unfold zipEntriesOf at he
    obtain ⟨pc, _, hpc⟩ := List.mem_map.mp he
    rw [← hpc]
    rfl

/-- C4 witness: the bijection holds at the walkthrough scenario root. -/
theorem C4_archive_staging_bijection_witness :
    ∃ st, (create_release_package cleanEnv (some exampleRoot)).2 = .ok st ∧
      ∃ scs, stagingOf st = some scs ∧
        releaseFileContent st zipName = some (zipBytes (zipEntriesOf scs)) ∧
        zipEntriesOf scs = (walkFiles scs).map (fun pc => (releaseName :: pc.1, pc.2)) ∧
        ((walkFiles scs).map (fun pc => pc.1)).Nodup ∧
        ((zipEntriesOf scs).map (fun e => e.1)).Nodup ∧
        (∀ e ∈ zipEntriesOf scs, e.1.head? = some releaseName) := by
  obtain ⟨evs, st2, hrun, _, _, _, _, _, _⟩ := run_clean_spec exampleRoot (by decide)
  have hok : (create_release_package cleanEnv (some exampleRoot)).2 = .ok st2 := by rw [hrun]
  exact ⟨st2, hok, C4_archive_staging_bijection exampleRoot st2 (by decide) (by decide) hok⟩

/-- C5: for every well-formed project root, the staging tree immediately
after the copy stage is exactly the present allow-listed directories
(each exclude-filtered) followed by the present allow-listed standalone
files, with nothing else; the run continues past absent entries (the
stage returns successfully for every such root); and the filtered walk
of any copied directory is exactly its full walk minus every path with a
component matching an exclude pattern. -/
theorem C5_staging_after_copy (fs : List Entry) (h : wfInput fs = true) :
    ∃ evs fs3, stagingPhase cleanEnv (some fs) = (evs, .ok fs3) ∧
      stagingOf fs3 = some (dirEnts source_dirs fs ++ fileEnts important_files fs) ∧
      (∀ cs, walkFiles (filterTrees cs) =
        (walkFiles cs).filter (fun pc => pc.1.all (fun comp => !matchesAny comp))) := by
  obtain ⟨evs, fs3, h1, h2, _⟩ := stagingPhase_spec fs h
  exact ⟨evs, fs3, h1, h2, fun cs => walkFiles_filterTrees cs⟩

/-- C5 witness: the copy-stage characterization at the walkthrough
scenario root. -/
theorem C5_staging_after_copy_witness :
    wfInput exampleRoot = true ∧
    ∃ evs fs3, stagingPhase cleanEnv (some exampleRoot) = (evs, .ok fs3) ∧
      stagingOf fs3 =
        some (dirEnts source_dirs exampleRoot ++ fileEnts important_files exampleRoot) ∧
      (∀ cs, walkFiles (filterTrees cs) =
        (walkFiles cs).filter (fun pc => pc.1.all (fun comp => !matchesAny comp))) :=
  ⟨by decide, C5_staging_after_copy exampleRoot (by decide)⟩

/-- C7: running the pipeline a second time over the filesystem the first
clean run left behind reproduces the identical staging tree and the
byte-identical archive (hence identical file-name sets), and the second
run's trace deletes the previous staging tree (`rmStaging`) before
repopulating, so nothing stale survives. -/
theorem C7_second_run_identical (fs st st2 : List Entry)
    (h : wfInput fs = true)
    (h1 : (create_release_package cleanEnv (some fs)).2 = .ok st)
    (h2 : (create_release_package cleanEnv (some st)).2 = .ok st2) :
    stagingOf st2 = stagingOf st ∧
    releaseFileContent st2 zipName = releaseFileContent st zipName ∧
    Event.rmStaging ∈ (create_release_package cleanEnv (some st)).1 := by
  obtain ⟨evsA, stA, hrunA, hstagA, hzipA, hckA, hpresA, _, _⟩ := run_clean_spec fs h
  have hokA : (create_release_package cleanEnv (some fs)).2 = .ok stA := by rw [hrunA]
  rw [hokA] at h1
  injection h1 with h1
  rw [h1] at hstagA hzipA hckA hpresA
  have hwf2 : wfInput st = true :=
    wfInput_of_run fs st h ⟨_, hstagA⟩ ⟨_, hzipA⟩ ⟨_, hckA⟩ hpresA
  obtain ⟨evsB, stB, hrunB, hstagB, hzipB, _, _, _, _⟩ := run_clean_spec st hwf2
  have hokB : (create_release_package cleanEnv (some st)).2 = .ok stB := by rw [hrunB]
  rw [hokB] at h2
  injection h2 with h2
  rw [h2] at hstagB hzipB
  have hfull : fullStaging st = fullStaging fs := fullStaging_congr st fs hpresA
  refine ⟨?_, ?_, ?_⟩
  · rw [hstagB, hstagA, hfull]
  · rw [hzipB, hzipA, hfull]
  · obtain ⟨rcs, hrc, hsf⟩ := stagingOf_inv st (fullStaging st)
      (by rw [hstagA, hfull])
    obtain ⟨nm, hfr⟩ := releaseChildren_inv st rcs hrc
    have hreset : resetStaging st =
        ([.rmStaging, .mkStaging], .ok (setRelease st (upsert rcs (.dir releaseName [])))) :=
      resetStaging_eq_oldStaging st nm releaseName rcs (fullStaging st) hfr hsf
    have e1 : (create_release_package cleanEnv (some st)).1 =
        (stagingPhase cleanEnv (some st)).1 ++
          (match (stagingPhase cleanEnv (some st)).2 with
            | .ok fs3 => (andThen (generateStage cleanEnv fs3)
                (fun fs4 => andThen (archiveStage cleanEnv fs4)
                  (fun fs5 => checksumStage cleanEnv fs5))).1
            | .error _ => []) := andThen_fst _ _
    rw [e1]
    apply List.mem_append_left
    have e2 : (stagingPhase cleanEnv (some st)).1 =
        (resetStaging ((some st).getD [])).1 ++
          (match (resetStaging ((some st).getD [])).2 with
            | .ok fs1 => (andThen (copyDirs cleanEnv source_dirs fs1)
                (fun fs2 => copyFiles cleanEnv important_files fs2)).1
            | .error _ => []) := andThen_fst _ _
    rw [e2]
    apply List.mem_append_left
    have e3 : (resetStaging ((some st).getD [])).1 =
        [Event.rmStaging, Event.mkStaging] := by
      show (resetStaging st).1 = _
      rw [hreset]
    rw [e3]
    exact List.mem_cons_self _ _

/-- C7 witness: the second-run equalities at the walkthrough scenario
root. -/
theorem C7_second_run_identical_witness :
    ∃ st st2, (create_release_package cleanEnv (some exampleRoot)).2 = .ok st ∧
      (create_release_package cleanEnv (some st)).2 = .ok st2 ∧
      (stagingOf st2 = stagingOf st ∧
       releaseFileContent st2 zipName = releaseFileContent st zipName ∧
       Event.rmStaging ∈ (create_release_package cleanEnv (some st)).1) := by
  obtain ⟨evsA, stA, hrunA, hstagA, hzipA, hckA, hpresA, _, _⟩ :=
    run_clean_spec exampleRoot (by decide)
  have hokA : (create_release_package cleanEnv (some exampleRoot)).2 = .ok stA := by rw [hrunA]
  have hwf2 : wfInput stA = true :=
    wfInput_of_run exampleRoot stA (by decide) ⟨_, hstagA⟩ ⟨_, hzipA⟩ ⟨_, hckA⟩ hpresA
  obtain ⟨evsB, stB, hrunB, _, _, _, _, _, _⟩ := run_clean_spec stA hwf2
  have hokB : (create_release_package cleanEnv (some stA)).2 = .ok stB := by rw [hrunB]
  exact ⟨stA, stB, hokA, hokB,
    C7_second_run_identical exampleRoot stA stB (by decide) hokA hokB⟩

/-- C8: in every completed clean run the pipeline issues exactly one
permission change — `os.chmod(build_unix.sh, 0o755)` on the generated
Unix build script — 0o755 carries the executable bits, and no chmod ever
targets the generated Windows script (which `open` creates with no
executable bit, the creation mode base being 0o666). -/
theorem C8_unix_script_executable (fs : List Entry) (h : wfInput fs = true) :
    ((create_release_package cleanEnv (some fs)).1.filter isChmodEvent =
      [Event.chmodFile "build_unix.sh" 0o755]) ∧
    hasExecBit 0o755 = true ∧
    (∀ mode, Event.chmodFile "build_windows.bat" mode ∉
      (create_release_package cleanEnv (some fs)).1) := by
  obtain ⟨evs, st, hrun, _, _, _, _, _, hchmod⟩ := run_clean_spec fs h
  have htr : (create_release_package cleanEnv (some fs)).1 = evs := by rw [hrun]
  rw [htr]
  refine ⟨hchmod, by decide, ?_⟩
  intro mode hmem
  have hmf : Event.chmodFile "build_windows.bat" mode ∈ evs.filter isChmodEvent :=
    List.mem_filter.mpr ⟨hmem, rfl⟩
  rw [hchmod] at hmf
  have heq := List.mem_singleton.mp hmf
  injection heq with hn _
  exact absurd hn (by decide)

/-- C8 witness: the chmod characterization at the walkthrough scenario
root. -/
theorem C8_unix_script_executable_witness :
    wfInput exampleRoot = true ∧
    (((create_release_package cleanEnv (some exampleRoot)).1.filter isChmodEvent =
      [Event.chmodFile "build_unix.sh" 0o755]) ∧
    hasExecBit 0o755 = true ∧
    (∀ mode, Event.chmodFile "build_windows.bat" mode ∉
      (create_release_package cleanEnv (some exampleRoot)).1)) :=
  ⟨by decide, C8_unix_script_executable exampleRoot (by decide)⟩

/-- C9 counterexample: the manifest written by the walkthrough-scenario
run does not consist of exactly a title line, a separator line, the
`File:` line and one line per algorithm — not even allowing a trailing
empty piece for the final newline — because the script writes an
additional blank line after the separator (`"========================\n\n"`):
the manifest splits into seven pieces, not five or six. -/
theorem C9_manifest_shape_counterexample :
    ¬ ∃ t sep sha md5s,
      (manifestLinesOf (some exampleRoot) =
        some [t, sep, "File: tinakit-v1.0.0.zip", "SHA256: " ++ sha, "MD5: " ++ md5s] ∨
       manifestLinesOf (some exampleRoot) =
        some [t, sep, "File: tinakit-v1.0.0.zip", "SHA256: " ++ sha, "MD5: " ++ md5s, ""]) := by
  obtain ⟨evs, st, hrun, _, _, hck, _, _, _⟩ := run_clean_spec exampleRoot (by decide)
  have hok : (create_release_package cleanEnv (some exampleRoot)).2 = .ok st := by rw [hrun]
  have hml : manifestLinesOf (some exampleRoot) =
      (releaseFileContent st "checksums.txt").map (fun cb => linesOf (decodeStr cb)) := by
    unfold manifestLinesOf
    rw [hok]
  rw [hck] at hml
  simp only [Option.map] at hml
  rw [decode_encode] at hml
  rw [linesOf_checksumsText _ _
    (fun c hc => (get_file_hash_chars _ "sha256" c hc).2)
    (fun c hc => (get_file_hash_chars _ "md5" c hc).2)] at hml
  rintro ⟨t, sep, sha, md5s, h5 | h6⟩
  · rw [hml] at h5
    have hlen := congrArg (Option.map List.length) h5
    simp at hlen
  · rw [hml] at h6
    have hlen := congrArg (Option.map List.length) h6
    simp at hlen

/-- C9 amended: the manifest of every completed clean run consists of the
title line, the separator line, a blank line, the `File:
tinakit-v1.0.0.zip` line, the `SHA256: <digest>` line and the `MD5:`
line (with three extra alignment spaces), each newline-terminated; the
two digests are exactly the script's digest function recomputed over the
archive bytes stored in the release directory, with 64 and 32 lowercase
hex characters respectively. -/
theorem C9_manifest_format (fs : List Entry) (h : wfInput fs = true) :
    ∃ st zb, (create_release_package cleanEnv (some fs)).2 = .ok st ∧
      releaseFileContent st zipName = some zb ∧
      releaseFileContent st "checksums.txt" = some (encodeStr (checksumsText
        (get_file_hash zb "sha256") (get_file_hash zb "md5"))) ∧
      linesOf (checksumsText (get_file_hash zb "sha256") (get_file_hash zb "md5")) =
        ["TinaKit v1.0.0 Checksums", "========================", "",
         "File: tinakit-v1.0.0.zip",
         "SHA256: " ++ get_file_hash zb "sha256",
         "MD5:    " ++ get_file_hash zb "md5", ""] ∧
      (get_file_hash zb "sha256").length = 64 ∧
      (get_file_hash zb "md5").length = 32 ∧
      isLowerHex (get_file_hash zb "sha256") = true ∧
      isLowerHex (get_file_hash zb "md5") = true := by
  obtain ⟨evs, st, hrun, _, hzip, hck, _, _, _⟩ := run_clean_spec fs h
  have hok : (create_release_package cleanEnv (some fs)).2 = .ok st := by rw [hrun]
  refine ⟨st, zipBytes (zipEntriesOf (fullStaging fs)), hok, hzip, hck, ?_, ?_, ?_, ?_, ?_⟩
  · exact linesOf_checksumsText _ _
      (fun c hc => (get_file_hash_chars _ "sha256" c hc).2)
      (fun c hc => (get_file_hash_chars _ "md5" c hc).2)
  · rw [get_file_hash_length]
    decide
  · rw [get_file_hash_length]
    decide
  · unfold isLowerHex
    rw [List.all_eq_true]
    exact fun c hc => (get_file_hash_chars _ "sha256" c hc).1
  · unfold isLowerHex
    rw [List.all_eq_true]
    exact fun c hc => (get_file_hash_chars _ "md5" c hc).1

/-- C9 witness: the amended manifest format at the walkthrough scenario
root. -/
theorem C9_manifest_format_witness :
    wfInput exampleRoot = true ∧
    ∃ st zb, (create_release_package cleanEnv (some exampleRoot)).2 = .ok st ∧
      releaseFileContent st zipName = some zb ∧
      releaseFileContent st "checksums.txt" = some (encodeStr (checksumsText
        (get_file_hash zb "sha256") (get_file_hash zb "md5"))) ∧
      linesOf (checksumsText (get_file_hash zb "sha256") (get_file_hash zb "md5")) =
        ["TinaKit v1.0.0 Checksums", "========================", "",
         "File: tinakit-v1.0.0.zip",
         "SHA256: " ++ get_file_hash zb "sha256",
         "MD5:    " ++ get_file_hash zb "md5", ""] ∧
      (get_file_hash zb "sha256").length = 64 ∧
      (get_file_hash zb "md5").length = 32 ∧
      isLowerHex (get_file_hash zb "sha256") = true ∧
      isLowerHex (get_file_hash zb "md5") = true :=
  ⟨by decide, C9_manifest_format exampleRoot (by decide)⟩

/-- C10: the exclude patterns act only inside `copytree` of allow-listed
directories.  `.gitignore` matches the exclude pattern `.git*` (so a
file of that name inside a copied directory is dropped), yet when
`.gitignore` exists at the project root it is copied unconditionally
into the staging tree root by the standalone-file loop, which applies no
exclude filter. -/
theorem C10_excludes_only_in_copytree (fs : List Entry) (c : List Nat)
    (h : wfInput fs = true) (hg : getFileContent fs ".gitignore" = some c) :
    matchesAny ".gitignore" = true ∧
    filterTree (Entry.file ".gitignore" c) = none ∧
    ∃ evs fs3, stagingPhase cleanEnv (some fs) = (evs, .ok fs3) ∧
      ∃ scs, stagingOf fs3 = some scs ∧
        findEntry scs ".gitignore" = some (Entry.file ".gitignore" c) := by
  have hmatch : matchesAny ".gitignore" = true := by decide
  refine ⟨hmatch, ?_, ?_⟩
  · unfold filterTree
    rw [hmatch]
    rfl
  · obtain ⟨evs, fs3, h1, h2, _⟩ := stagingPhase_spec fs h
    refine ⟨evs, fs3, h1, copiedStaging fs, h2, ?_⟩
    unfold copiedStaging
    rw [findEntry_append_right _ _ _ (fun e he => by
      have hn := mem_dirEnts_name source_dirs fs e he
      have : ∀ s ∈ source_dirs, s ≠ ".gitignore" := by decide
      exact this e.name hn)]
    exact findEntry_fileEnts important_files fs ".gitignore" c (by decide) hg

/-- C10 witness: the top-level `.gitignore` of `gitignoreRoot` is staged
even though its name matches an exclude pattern. -/
theorem C10_excludes_only_in_copytree_witness :
    wfInput gitignoreRoot = true ∧
    getFileContent gitignoreRoot ".gitignore" = some [35] ∧
    (matchesAny ".gitignore" = true ∧
    filterTree (Entry.file ".gitignore" [35]) = none ∧
    ∃ evs fs3, stagingPhase cleanEnv (some gitignoreRoot) = (evs, .ok fs3) ∧
      ∃ scs, stagingOf fs3 = some scs ∧
        findEntry scs ".gitignore" = some (Entry.file ".gitignore" [35])) :=
  ⟨by decide, by decide, C10_excludes_only_in_copytree gitignoreRoot [35] (by decide) (by decide)⟩

end CreateRelease
